import Mathlib

/-!
Verification of the BAR archive container codec.

The development shallowly embeds the container reader (`part_001`) and the
container writer (`part_002`) of the `bar` package.  Bytes are modelled as
natural numbers (`< 256` where it matters), byte streams as `List Nat`.
The DEFLATE compressor/decompressor from the Go standard library is not part
of the repository; it is abstracted as a `Codec` structure carrying exactly
the properties the codec relies on (self-delimiting streams, a round-trip
law, prefix determinism), together with a concrete executable instance
`lenCodec` (a length-prefixed stream) used for witnesses.
-/

deriving instance DecidableEq for Except

namespace Bar

/-! ## Byte-order codec (wBuf / rBuf, `encoding/binary` little endian) -/

/-- Little-endian encoding of `v` into `k` bytes, as `binary.LittleEndian.PutUintN`. -/
def encLE : Nat → Nat → List Nat
  | 0, _ => []
  | k + 1, v => v % 256 :: encLE k (v / 256)

/-- Little-endian decoding of a byte list, as `binary.LittleEndian.UintN`. -/
def decLE : List Nat → Nat
  | [] => 0
  | b :: r => b + 256 * decLE r

/-- A `make`-style zero-padded buffer of length `n` partially filled by `l`. -/
def padTo (n : Nat) (l : List Nat) : List Nat := l ++ List.replicate (n - l.length) 0

/-! ## Adler-32 (`hash/adler32`) -/

/-- One byte step of Adler-32: `s1 += b; s1 %= 65521; s2 += s1; s2 %= 65521`. -/
def adlerStep (p : Nat × Nat) (x : Nat) : Nat × Nat :=
  ((p.1 + x) % 65521, (p.2 + p.1 + x) % 65521)

/-- The Adler-32 checksum of a byte stream (`adler32.New` then `Write` then `Sum32`). -/
def adler32 (l : List Nat) : Nat :=
  let p := l.foldl adlerStep (1, 0)
  p.2 * 65536 + p.1

/-! ## Path validation (`filepath.IsLocal`, Unix lexical rules) -/

/-- Segment scan equivalent to `filepath.Clean` followed by the leading-`..`
check of `filepath.IsLocal`: tracks directory depth; a `..` at depth 0 escapes. -/
def segsOk : List (List Nat) → Nat → Bool
  | [], _ => true
  | s :: rest, d =>
    if s = [] ∨ s = [46] then segsOk rest d
    else if s = [46, 46] then (if d = 0 then false else segsOk rest (d - 1))
    else segsOk rest (d + 1)

/-- Model of `filepath.IsLocal` (Unix): non-empty, not absolute, and no
parent-traversal escape after cleaning.  Names are byte lists; `47 = '/'`. -/
def isLocalName (s : List Nat) : Bool :=
  !s.isEmpty && !(s.head? == some 47) && segsOk (s.splitOn 47) 0

/-! ## Data model -/

/-- `bar.Entry` from `common.go`: the per-file directory record. -/
structure Entry where
  Name : List Nat
  Size : Nat
  Perm : Nat
  sizeCompressed : Nat
  index : Nat
  adler : Nat
deriving DecidableEq, Repr

instance : Inhabited Entry := ⟨⟨[], 0, 0, 0, 0, 0⟩⟩

/-- The error values of the package (`errors.New` values plus the `io`
sentinels surfaced by the code). -/
inductive BErr where
  | unknownFormat
  | unsupportedVersion
  | invalidChecksum
  | noValidEntry
  | pathIsNotSimple
  | writeAfterClose
  | unexpectedEOF
  | eof
  | seekFailure
  | corruptData
deriving DecidableEq, Repr

/-- One logical file handed to the writer: name, permission bits, content. -/
structure Item where
  name : List Nat
  perm : Nat
  content : List Nat
deriving DecidableEq, Repr

instance : Inhabited Item := ⟨⟨[], 0, []⟩⟩

/-! ## The compression layer

`compress/flate` is external library code.  A `Codec` packages a compressor
and a self-delimiting decompressor; `decompress` returns the decompressed
bytes together with the number of compressed bytes consumed (a DEFLATE
reader consumes its stream byte-at-a-time and stops exactly at the stream
boundary, which is how back-to-back streams are separated). -/
structure Codec where
  compress : List Nat → List Nat
  decompress : List Nat → Option (List Nat × Nat)
  /-- Decompressing a compressed stream (with anything after it) recovers the
  input and consumes exactly the compressed stream. -/
  comp_roundtrip : ∀ xs rest, xs.length < 2 ^ 64 →
    decompress (compress xs ++ rest) = some (xs, (compress xs).length)
  /-- A compressed stream is never empty. -/
  comp_ne : ∀ xs, compress xs ≠ []
  /-- Compression maps byte streams to byte streams. -/
  comp_bytes : ∀ xs, (∀ b ∈ xs, b < 256) → ∀ b ∈ compress xs, b < 256
  /-- The decompressor consumes no more bytes than are available. -/
  dec_le : ∀ s tb n, decompress s = some (tb, n) → n ≤ s.length
  /-- The decompressor looks only at the bytes it consumes. -/
  dec_stable : ∀ s t tb n, decompress s = some (tb, n) → t.take n = s.take n →
    decompress t = some (tb, n)

/-! ### Basic facts about the byte-order codec -/

theorem encLE_length (k v : Nat) : (encLE k v).length = k := by
  induction k generalizing v with
  | zero => simp [encLE]
  | succ k ih => simp [encLE, ih]

theorem decLE_encLE (k v : Nat) : decLE (encLE k v) = v % 256 ^ k := by
  induction k generalizing v with
  | zero => simp [encLE, decLE, Nat.mod_one]
  | succ k ih =>
    simp only [encLE, decLE, ih]
    rw [pow_succ, mul_comm (256 ^ k) 256, Nat.mod_mul]

theorem decLE_encLE_of_lt {k v : Nat} (h : v < 256 ^ k) : decLE (encLE k v) = v := by
  rw [decLE_encLE]; exact Nat.mod_eq_of_lt h

theorem encLE_bytes (k v : Nat) : ∀ b ∈ encLE k v, b < 256 := by
  induction k generalizing v with
  | zero => intro b hb; simp [encLE] at hb
  | succ k ih =>
    intro b hb
    simp only [encLE, List.mem_cons] at hb
    rcases hb with h | h
    · subst h; exact Nat.mod_lt _ (by norm_num)
    · exact ih _ _ h

theorem encLE_decLE : ∀ l : List Nat, (∀ b ∈ l, b < 256) → encLE l.length (decLE l) = l := by
  intro l
  induction l with
  | nil => intro _; simp [encLE]
  | cons b r ih =>
    intro hb
    have hb0 : b < 256 := hb b (by simp)
    simp only [List.length_cons, encLE, decLE, List.cons.injEq]
    constructor
    · omega
    · have : (b + 256 * decLE r) / 256 = decLE r := by omega
      rw [this]
      exact ih (fun x hx => hb x (by simp [hx]))

/-- Taking the first `l₁.length + more` elements of `l₁ ++ l₂`. -/
theorem take_app_len {α : Type} (l₁ l₂ : List α) (n : Nat) (h : l₁.length = n) :
    (l₁ ++ l₂).take n = l₁ := List.take_left' h

theorem drop_app_len {α : Type} (l₁ l₂ : List α) (n : Nat) (h : l₁.length = n) :
    (l₁ ++ l₂).drop n = l₂ := List.drop_left' h

/-! ### The concrete codec -/

/-- Length-prefixed compression: the payload length as eight bytes, then the
payload.  Stands in for one DEFLATE stream in witnesses. -/
def lenCompress (xs : List Nat) : List Nat := encLE 8 xs.length ++ xs

/-- Self-delimiting decoder for `lenCompress` streams. -/
def lenDecompress (s : List Nat) : Option (List Nat × Nat) :=
  if 8 ≤ s.length ∧ 8 + decLE (s.take 8) ≤ s.length then
    some ((s.drop 8).take (decLE (s.take 8)), 8 + decLE (s.take 8))
  else none

theorem lenCompress_length (xs : List Nat) : (lenCompress xs).length = 8 + xs.length := by
  simp [lenCompress, encLE_length]

theorem lenDecompress_eq_some {s tb : List Nat} {n : Nat}
    (h : lenDecompress s = some (tb, n)) :
    8 ≤ s.length ∧ n = 8 + decLE (s.take 8) ∧ tb = (s.drop 8).take (decLE (s.take 8)) ∧
      n ≤ s.length := by
  unfold lenDecompress at h
  by_cases hc : 8 ≤ s.length ∧ 8 + decLE (s.take 8) ≤ s.length
  · rw [if_pos hc] at h
    injection h with h1
    have h2 := congrArg Prod.fst h1
    have h3 := congrArg Prod.snd h1
    simp at h2 h3
    exact ⟨hc.1, h3.symm, h2.symm, by omega⟩
  · rw [if_neg hc] at h; exact absurd h (by simp)

/-- Concrete executable codec used for witnesses. -/
def lenCodec : Codec where
  compress := lenCompress
  decompress := lenDecompress
  comp_roundtrip := by
    intro xs rest hlen
    have hl : (encLE 8 xs.length).length = 8 := encLE_length _ _
    have htake : (lenCompress xs ++ rest).take 8 = encLE 8 xs.length := by
      rw [lenCompress, List.append_assoc]
      exact take_app_len _ _ _ hl
    have hdrop : (lenCompress xs ++ rest).drop 8 = xs ++ rest := by
      rw [lenCompress, List.append_assoc]
      exact drop_app_len _ _ _ hl
    have hdec : decLE ((lenCompress xs ++ rest).take 8) = xs.length := by
      rw [htake]
      exact decLE_encLE_of_lt (by norm_num at hlen ⊢; omega)
    have hlen2 : (lenCompress xs ++ rest).length = 8 + xs.length + rest.length := by
      rw [List.length_append, lenCompress_length]
    have hcond : 8 ≤ (lenCompress xs ++ rest).length ∧
        8 + decLE ((lenCompress xs ++ rest).take 8) ≤ (lenCompress xs ++ rest).length := by
      rw [hdec, hlen2]
      omega
    unfold lenDecompress
    rw [if_pos hcond, hdec, hdrop, lenCompress_length,
      take_app_len xs rest xs.length rfl]
  comp_ne := by intro xs; simp [lenCompress, encLE]
  comp_bytes := by
    intro xs hxs b hb
    rcases List.mem_append.mp hb with h | h
    · exact encLE_bytes _ _ _ h
    · exact hxs _ h
  dec_le := by
    intro s tb n h
    exact (lenDecompress_eq_some h).2.2.2
  dec_stable := by
    intro s t tb n h ht
    obtain ⟨h8, hn, htb, hns⟩ := lenDecompress_eq_some h
    have hlen_t : n ≤ t.length := by
      have h1' := congrArg List.length ht
      simp [List.length_take] at h1'
      omega
    have htake8 : t.take 8 = s.take 8 := by
      have : (t.take n).take 8 = (s.take n).take 8 := by rw [ht]
      simpa [List.take_take, Nat.min_eq_left (show 8 ≤ n by omega)] using this
    unfold lenDecompress
    rw [htake8, if_pos (by omega)]
    have hdt : (t.drop 8).take (decLE (s.take 8)) = (s.drop 8).take (decLE (s.take 8)) := by
      have h1' : (t.take n).drop 8 = (s.take n).drop 8 := by rw [ht]
      rw [List.drop_take, List.drop_take] at h1'
      have : n - 8 = decLE (s.take 8) := by omega
      rwa [this] at h1'
    rw [hdt, ← htb, ← hn]

/-! ## Container writer (`part_002`)

The streaming `dataWriter` (flate writer + compressed/uncompressed counters +
Adler-32 over the compressed bytes) is modelled functionally: the open entry
buffers its uncompressed bytes in `curr`, and finalizing an entry emits the
whole compressed stream at once.  The bytes appended to the sink and all
recorded sizes/checksums are identical to the streaming original, since a
`dataWriter` is closed before the next one writes. -/

/-- Writer state (`bar.Writer`): sink contents so far, running absolute
offset, entry list, open entry buffer, latched error. -/
structure Writer where
  out : List Nat
  index : Nat
  entries : List Entry
  curr : Option (List Nat)
  err : Option BErr
deriving DecidableEq, Repr

/-- The four-byte header `"BAR" ++ [Version]`. -/
def headerBytes : List Nat := [66, 65, 82, 1]

/-- `bar.NewWriter`: writes the header; the initial latched error is
`ErrNoValidEntry`. -/
def newWriter : Writer := ⟨headerBytes, 4, [], none, some .noValidEntry⟩

/-- Replace the last element of an entry list (`bw.entries[len(bw.entries)-1] = ...`). -/
def setLast (l : List Entry) (f : Entry → Entry) : List Entry :=
  match l with
  | [] => []
  | [e] => [f e]
  | e :: rest => e :: setLast rest f

/-- The field updates `finalizeEntry` applies to the last entry: compressed
size, checksum of the compressed bytes, uncompressed size. -/
def finalizeFields (c : Codec) (buf : List Nat) (e : Entry) : Entry :=
  { e with
    sizeCompressed := (c.compress buf).length
    adler := adler32 (c.compress buf)
    Size := buf.length }

/-- `Writer.finalizeEntry`: close the open data stream, append its compressed
bytes, advance the offset, record compressed size / checksum / size in the
last entry. -/
def finalizeEntry (c : Codec) (w : Writer) : Writer :=
  match w.curr with
  | none => w
  | some buf =>
    { w with
      out := w.out ++ c.compress buf
      index := w.index + (c.compress buf).length
      entries := setLast w.entries (finalizeFields c buf)
      curr := none }

/-- `Writer.Create`. -/
def create (c : Codec) (w : Writer) (name : List Nat) : Writer × Option BErr :=
  if w.err ≠ none ∧ w.err ≠ some .noValidEntry then (w, w.err)
  else
    let w1 := if w.err ≠ some .noValidEntry then finalizeEntry c w else w
    if ¬ (isLocalName name = true) ∨ name.contains 92 = true then
      ({ w1 with err := some .pathIsNotSimple }, some .pathIsNotSimple)
    else
      ({ w1 with
          entries := w1.entries ++ [⟨name, 0, 420, 0, w1.index, 0⟩]
          curr := some []
          err := none }, none)

/-- `Writer.SetPerms`. -/
def setPerms (w : Writer) (p : Nat) : Writer × Option BErr :=
  if w.err ≠ none then (w, w.err)
  else ({ w with entries := setLast w.entries fun e => { e with Perm := p } }, none)

/-- `Writer.Write`: buffer more uncompressed bytes into the open entry. -/
def write (w : Writer) (bs : List Nat) : Writer × Option BErr :=
  if w.err ≠ none then (w, w.err)
  else ({ w with curr := w.curr.map (· ++ bs) }, none)

/-- The fixed 32-byte portion of a table record, as `Writer.writeTable` fills
its `buf`: compressed size, uncompressed size, offset, checksum, permissions,
name length, all little endian, packed in this order. -/
def encFixed (e : Entry) : List Nat :=
  encLE 8 e.sizeCompressed ++ encLE 8 e.Size ++ encLE 8 e.index ++
    encLE 4 e.adler ++ encLE 2 e.Perm ++ encLE 2 e.Name.length

/-- One whole table record: the fixed portion followed by the raw name bytes
(`w.Write(buf)` then `io.WriteString(w, x.Name)`). -/
def encRecord (e : Entry) : List Nat := encFixed e ++ e.Name

/-- The uncompressed table: the records in entry-list order. -/
def tableBytes : List Entry → List Nat
  | [] => []
  | e :: es => encRecord e ++ tableBytes es

/-- `Writer.Close`: finalize the open entry, write the compressed table,
then the footer (pre-table offset, table checksum, entry count); latch
`ErrWriteAfterClose`. -/
def close (c : Codec) (w : Writer) : Writer × Option BErr :=
  if w.err ≠ none then (w, w.err)
  else
    let w1 := finalizeEntry c w
    let comp := c.compress (tableBytes w1.entries)
    ({ w1 with
        out := w1.out ++ comp ++ encLE 8 w1.index ++ encLE 4 (adler32 comp) ++
          encLE 4 w1.entries.length
        err := some .writeAfterClose }, none)

/-- One call against the writer. -/
inductive Op where
  | create (name : List Nat)
  | setPerms (p : Nat)
  | write (bs : List Nat)
  | close
deriving DecidableEq, Repr

/-- Dispatch one call, returning the new state and the returned error. -/
def applyOp (c : Codec) (w : Writer) : Op → Writer × Option BErr
  | .create n => create c w n
  | .setPerms p => setPerms w p
  | .write bs => write w bs
  | .close => close c w

/-- Run a sequence of calls, keeping only the states. -/
def runOps (c : Codec) (w : Writer) : List Op → Writer
  | [] => w
  | op :: ops => runOps c (applyOp c w op).1 ops

/-- The canonical per-item call pattern of claim C1:
`Create name; SetPerms perm; Write content`. -/
def stepItem (c : Codec) (w : Writer) (it : Item) : Writer :=
  (write (setPerms (create c w it.name).1 it.perm).1 it.content).1

/-- Write every item in order, starting from a fresh writer. -/
def runItems (c : Codec) (items : List Item) : Writer :=
  items.foldl (stepItem c) newWriter

/-- Build a whole container: write all items, then `Close`; the container is
what reached the sink. -/
def buildContainer (c : Codec) (items : List Item) : List Nat :=
  (close c (runItems c items)).1.out

/-! ## Container reader (`part_001`)

The table is decompressed through an Adler-32 accumulating reader; since the
flate reader pulls its stream byte-at-a-time, by the time the record loop has
consumed the whole decompressed table the accumulator has seen exactly the
compressed table bytes.  The model decompresses the stream wholesale and
accumulates over the consumed compressed range. -/

/-- Decode one table record from the decompressed stream, mirroring one
iteration of the `NewReader` loop.  A read that drains the stream carries the
flate reader's `io.EOF`; for the fixed 32-byte portion that is always fatal,
for the name bytes it is accepted exactly when `isLast` (the `i == count-1`
case), with the zero-initialized name buffer only partially filled. -/
def decRecord (isLast : Bool) (s : List Nat) : Option (Entry × List Nat) :=
  if s.length ≤ 32 then none
  else
    let buf := s.take 32
    let nlen := decLE ((buf.drop 30).take 2)
    let s1 := s.drop 32
    let e : Entry :=
      { Name := []
        sizeCompressed := decLE (buf.take 8)
        Size := decLE ((buf.drop 8).take 8)
        index := decLE ((buf.drop 16).take 8)
        adler := decLE ((buf.drop 24).take 4)
        Perm := decLE ((buf.drop 28).take 2) }
    if s1.length ≤ nlen then
      if isLast then some ({ e with Name := padTo nlen (s1.take nlen) }, s1.drop nlen)
      else none
    else some ({ e with Name := s1.take nlen }, s1.drop nlen)

/-- The `NewReader` record loop: decode `count` records, also returning the
unconsumed rest of the decompressed stream.  Any `EOF` surfaced by
`decRecord` is returned as `io.ErrUnexpectedEOF`. -/
def decodeEntriesRest : Nat → List Nat → Except BErr (List Entry × List Nat)
  | 0, s => .ok ([], s)
  | k + 1, s =>
    match decRecord (k == 0) s with
    | none => .error .unexpectedEOF
    | some (e, s1) =>
      match decodeEntriesRest k s1 with
      | .error er => .error er
      | .ok (es, rest) => .ok (e :: es, rest)

/-- The entry list produced by the record loop. -/
def decodeEntries (count : Nat) (s : List Nat) : Except BErr (List Entry) :=
  (decodeEntriesRest count s).map (·.1)

/-- `bar.NewReader`: header validation, footer location, table decode,
table checksum verification. -/
def newReader (c : Codec) (s : List Nat) : Except BErr (List Entry) :=
  if s.length = 0 then .error .unexpectedEOF
  else
    let header := padTo 4 (s.take 4)
    if header.take 3 ≠ [66, 65, 82] then .error .unknownFormat
    else if header.getD 3 0 ≠ 1 then .error .unsupportedVersion
    else if s.length < 16 then .error .seekFailure
    else
      let footer := s.drop (s.length - 16)
      let table := decLE (footer.take 8)
      let adler := decLE ((footer.drop 8).take 4)
      let count := decLE ((footer.drop 12).take 4)
      if 2 ^ 63 ≤ table then .error .seekFailure
      else
        match c.decompress (s.drop table) with
        | none => .error .corruptData
        | some (tb, n) =>
          match decodeEntries count tb with
          | .error e => .error e
          | .ok es =>
            if adler32 ((s.drop table).take n) ≠ adler then .error .invalidChecksum
            else .ok es

/-! ### Per-entry read views (`entryReader`) -/

/-- State of an `entryReader`: remaining decompressed bytes, remaining
declared count, Adler-32 accumulated over the compressed bytes of the entry's
stream, the checksum declared in the table record, and the latched terminal
result. -/
structure EReader where
  d : List Nat
  count : Nat
  acc : Nat
  adler : Nat
  err : Option BErr
deriving DecidableEq, Repr

/-- `Reader.EntryReader`: seek to the entry's offset and layer an Adler-32
accumulating reader and a flate reader over the stream found there. -/
def eopen (c : Codec) (s : List Nat) (e : Entry) : Option EReader :=
  if 2 ^ 63 ≤ e.index then none
  else
    match c.decompress (s.drop e.index) with
    | none => none
    | some (d, n) => some ⟨d, e.Size, adler32 ((s.drop e.index).take n), e.adler, none⟩

/-- `entryReader.Read` for a request of `n` bytes: latched errors repeat; the
request is clipped to the remaining declared count; a read that drains the
decompressed stream carries `io.EOF`; the final switch latches
`io.ErrUnexpectedEOF` on a short stream, `io.EOF` when the declared count is
reached. -/
def eread (er : EReader) (n : Nat) : (List Nat × Option BErr) × EReader :=
  match er.err with
  | some e => (([], some e), er)
  | none =>
    let m := min n er.count
    let bytes := if 0 < m then er.d.take m else []
    let d1 := if 0 < m then er.d.drop m else er.d
    let rerr : Option BErr := if 0 < m ∧ er.d.length ≤ m then some .eof else none
    let cnt1 := er.count - bytes.length
    if rerr = some .eof ∧ 0 < cnt1 then
      ((bytes, some .unexpectedEOF), { er with d := d1, count := cnt1, err := some .unexpectedEOF })
    else if rerr = none ∧ cnt1 = 0 then
      ((bytes, some .eof), { er with d := d1, count := cnt1, err := some .eof })
    else
      ((bytes, rerr), { er with d := d1, count := cnt1, err := rerr })

/-- `entryReader.Close`: compare the declared checksum with the accumulated
one. -/
def eclose (er : EReader) : Option BErr :=
  if er.adler ≠ er.acc then some .invalidChecksum else none

/-! ## Derived descriptions of the writer's output -/

/-- The Data region: the entries' compressed streams, in append order. -/
def dataBytes (c : Codec) : List Item → List Nat
  | [] => []
  | it :: rest => c.compress it.content ++ dataBytes c rest

/-- The finalized entry record for one item whose compressed stream starts at
absolute offset `idx`. -/
def mkEntry (c : Codec) (idx : Nat) (it : Item) : Entry :=
  ⟨it.name, it.content.length, it.perm, (c.compress it.content).length, idx,
    adler32 (c.compress it.content)⟩

/-- The finalized entry list when the first compressed stream starts at `idx`. -/
def finalizedEntries (c : Codec) (idx : Nat) : List Item → List Entry
  | [] => []
  | it :: rest =>
    mkEntry c idx it :: finalizedEntries c (idx + (c.compress it.content).length) rest

/-- The byte layout of a finished container: header, data, compressed table,
footer. -/
def containerOf (c : Codec) (items : List Item) : List Nat :=
  headerBytes ++ dataBytes c items ++
    c.compress (tableBytes (finalizedEntries c 4 items)) ++
    encLE 8 (4 + (dataBytes c items).length) ++
    encLE 4 (adler32 (c.compress (tableBytes (finalizedEntries c 4 items)))) ++
    encLE 4 items.length

/-! ## Validity hypotheses -/

/-- A name the writer accepts: local relative path, no backslash. -/
abbrev ValidName (n : List Nat) : Prop := isLocalName n = true ∧ n.contains 92 = false

/-- An item whose fields fit the record layout. -/
abbrev ValidItem (it : Item) : Prop :=
  ValidName it.name ∧ it.perm < 2 ^ 16 ∧ it.name.length < 2 ^ 16 ∧
    it.content.length < 2 ^ 64 ∧ ∀ b ∈ it.content, b < 256

/-- A batch of items the writer can archive within the format's bounds. -/
abbrev ValidItems (c : Codec) (items : List Item) : Prop :=
  items ≠ [] ∧ (∀ it ∈ items, ValidItem it) ∧
    4 + (dataBytes c items).length < 2 ^ 63 ∧
    (tableBytes (finalizedEntries c 4 items)).length < 2 ^ 64 ∧
    items.length < 2 ^ 32

/-- Field bounds a table record can carry. -/
abbrev GoodEntry (e : Entry) : Prop :=
  e.sizeCompressed < 2 ^ 64 ∧ e.Size < 2 ^ 64 ∧ e.index < 2 ^ 64 ∧
    e.adler < 2 ^ 32 ∧ e.Perm < 2 ^ 16 ∧ e.Name.length < 2 ^ 16

/-! ## Adler-32 facts -/

theorem adlerPair_bound (l : List Nat) :
    (l.foldl adlerStep (1, 0)).1 < 65521 ∧ (l.foldl adlerStep (1, 0)).2 < 65521 := by
  have h : ∀ (l : List Nat) (p : Nat × Nat), p.1 < 65521 → p.2 < 65521 →
      (l.foldl adlerStep p).1 < 65521 ∧ (l.foldl adlerStep p).2 < 65521 := by
    intro l
    induction l with
    | nil => intro p h1 h2; exact ⟨h1, h2⟩
    | cons x r ih =>
      intro p h1 h2
      exact ih _ (Nat.mod_lt _ (by norm_num)) (Nat.mod_lt _ (by norm_num))
  exact h l (1, 0) (by norm_num) (by norm_num)

theorem adler32_def (l : List Nat) :
    adler32 l = (l.foldl adlerStep (1, 0)).2 * 65536 + (l.foldl adlerStep (1, 0)).1 := rfl

theorem adler32_lt (l : List Nat) : adler32 l < 2 ^ 32 := by
  obtain ⟨h1, h2⟩ := adlerPair_bound l
  rw [adler32_def]
  omega

/-- The low half of the Adler pair is the byte sum plus the seed, mod 65521. -/
theorem adlerPair_fst (l : List Nat) :
    ∀ p : Nat × Nat, p.1 < 65521 → (l.foldl adlerStep p).1 = (p.1 + l.sum) % 65521 := by
  induction l with
  | nil =>
    intro p hp
    simpa using (Nat.mod_eq_of_lt hp).symm
  | cons x r ih =>
    intro p hp
    simp only [List.foldl_cons, List.sum_cons]
    rw [ih (adlerStep p x) (Nat.mod_lt _ (by norm_num))]
    simp only [adlerStep]
    omega

/-- Replacing one element of a list changes the sum by swapping that byte. -/
theorem sum_set_add (l : List Nat) (p v : Nat) (hp : p < l.length) :
    (l.set p v).sum + l.getD p 0 = l.sum + v := by
  induction l generalizing p with
  | nil => simp at hp
  | cons x r ih =>
    cases p with
    | zero => simp [List.set, List.getD]; omega
    | succ p =>
      simp only [List.set, List.sum_cons, List.getD_cons_succ]
      have := ih p (by simpa using hp)
      omega

/-- Changing a single in-range byte of a stream always changes its Adler-32:
the low sum moves by a nonzero amount smaller than the modulus. -/
theorem adler32_set_ne (l : List Nat) (p v : Nat) (hp : p < l.length) (hv : v < 256)
    (hb : l.getD p 0 < 256) (hne : v ≠ l.getD p 0) :
    adler32 (l.set p v) ≠ adler32 l := by
  intro heq
  have h1 := adlerPair_bound (l.set p v)
  have h2 := adlerPair_bound l
  have ha1 : ((l.set p v).foldl adlerStep (1, 0)).1 = (1 + (l.set p v).sum) % 65521 :=
    adlerPair_fst _ _ (by norm_num)
  have ha2 : (l.foldl adlerStep (1, 0)).1 = (1 + l.sum) % 65521 :=
    adlerPair_fst _ _ (by norm_num)
  have hsum := sum_set_add l p v hp
  rw [adler32_def, adler32_def] at heq
  omega

/-! ## Structural lemmas about the writer's output -/

theorem setLast_append (l : List Entry) (e : Entry) (f : Entry → Entry) :
    setLast (l ++ [e]) f = l ++ [f e] := by
  induction l with
  | nil => rfl
  | cons a l ih =>
    cases l with
    | nil => rfl
    | cons b l' => simpa [setLast] using ih

theorem dataBytes_append (c : Codec) (l1 l2 : List Item) :
    dataBytes c (l1 ++ l2) = dataBytes c l1 ++ dataBytes c l2 := by
  induction l1 with
  | nil => simp [dataBytes]
  | cons it l ih => simp [dataBytes, ih]

theorem finalizedEntries_append (c : Codec) (i : Nat) (l1 l2 : List Item) :
    finalizedEntries c i (l1 ++ l2) =
      finalizedEntries c i l1 ++ finalizedEntries c (i + (dataBytes c l1).length) l2 := by
  induction l1 generalizing i with
  | nil => simp [finalizedEntries, dataBytes]
  | cons it l ih =>
    simp only [List.cons_append, finalizedEntries, dataBytes, List.length_append,
      List.append_eq, ih, Nat.add_assoc]

theorem finalizedEntries_length (c : Codec) (i : Nat) (l : List Item) :
    (finalizedEntries c i l).length = l.length := by
  induction l generalizing i with
  | nil => rfl
  | cons it l ih => simp [finalizedEntries, ih]

theorem dataBytes_length (c : Codec) (l : List Item) :
    (dataBytes c l).length = (l.map fun it => (c.compress it.content).length).sum := by
  induction l with
  | nil => rfl
  | cons it l ih => simp [dataBytes, ih]

/-- Every finalized entry comes from an item, with its offset and size inside
the data region starting at `i`. -/
theorem finalizedEntries_mem (c : Codec) (i : Nat) (l : List Item) (e : Entry)
    (he : e ∈ finalizedEntries c i l) :
    ∃ it ∈ l, e.Name = it.name ∧ e.Size = it.content.length ∧ e.Perm = it.perm ∧
      e.sizeCompressed = (c.compress it.content).length ∧
      e.adler = adler32 (c.compress it.content) ∧
      i ≤ e.index ∧ e.index + e.sizeCompressed ≤ i + (dataBytes c l).length := by
  induction l generalizing i with
  | nil => simp [finalizedEntries] at he
  | cons it l ih =>
    simp only [finalizedEntries, List.mem_cons] at he
    rcases he with h | h
    · subst h
      refine ⟨it, by simp, rfl, rfl, rfl, rfl, rfl, le_refl _, ?_⟩
      simp only [dataBytes, List.length_append, mkEntry]
      omega
    · obtain ⟨it', hm, h1, h2, h3, h4, h5, h6, h7⟩ := ih _ h
      refine ⟨it', by simp [hm], h1, h2, h3, h4, h5, by omega, ?_⟩
      simp only [dataBytes, List.length_append]
      omega

theorem validName_ne (n : List Nat) (h : isLocalName n = true) : n ≠ [] := by
  intro he
  subst he
  simp [isLocalName] at h

/-- Creating a valid entry on a fresh writer. -/
theorem stepItem_fresh (c : Codec) (it : Item) (hl : isLocalName it.name = true)
    (hb : it.name.contains 92 = false) :
    stepItem c newWriter it = ⟨headerBytes, 4, [⟨it.name, 0, it.perm, 0, 4, 0⟩],
      some it.content, none⟩ := by
  have hb' : 92 ∉ it.name := by simpa using hb
  simp [stepItem, create, setPerms, write, newWriter, setLast, hl, hb']

/-- Creating a valid entry on a writer with an open entry: the open entry is
finalized, a fresh record is appended, and the new content is buffered. -/
theorem stepItem_open (c : Codec) (o : List Nat) (idx : Nat) (es : List Entry)
    (buf : List Nat) (it : Item) (hl : isLocalName it.name = true)
    (hb : it.name.contains 92 = false) :
    stepItem c ⟨o, idx, es, some buf, none⟩ it =
      ⟨o ++ c.compress buf, idx + (c.compress buf).length,
       setLast es (finalizeFields c buf) ++
         [⟨it.name, 0, it.perm, 0, idx + (c.compress buf).length, 0⟩],
       some it.content, none⟩ := by
  have hb' : 92 ∉ it.name := by simpa using hb
  simp [stepItem, create, setPerms, write, finalizeEntry, setLast_append, hl, hb']

/-- The state of the writer after the canonical calls for `pre ++ [last]`:
the data region for `pre` is flushed, `pre`'s entries are finalized, and the
entry for `last` is open with its content buffered. -/
theorem runItems_spec (c : Codec) (pre : List Item) (last : Item)
    (hv : ∀ it ∈ pre ++ [last], ValidName it.name) :
    runItems c (pre ++ [last]) =
      ⟨headerBytes ++ dataBytes c pre,
       4 + (dataBytes c pre).length,
       finalizedEntries c 4 pre ++
         [⟨last.name, 0, last.perm, 0, 4 + (dataBytes c pre).length, 0⟩],
       some last.content,
       none⟩ := by
  induction pre using List.reverseRecOn generalizing last with
  | nil =>
    obtain ⟨hl, hb⟩ := hv last (by simp)
    show stepItem c newWriter last = _
    rw [stepItem_fresh c last hl hb]
    simp [finalizedEntries, dataBytes, headerBytes]
  | append_singleton pre mid ih =>
    have hv' : ∀ it ∈ pre ++ [mid], ValidName it.name := by
      intro it hit
      refine hv it ?_
      simp only [List.mem_append, List.mem_singleton] at hit ⊢
      tauto
    obtain ⟨hl, hb⟩ := hv last (by simp)
    have hrun : runItems c ((pre ++ [mid]) ++ [last]) =
        stepItem c (runItems c (pre ++ [mid])) last := by
      unfold runItems
      rw [List.foldl_append]
      rfl
    rw [hrun, ih mid hv', stepItem_open c _ _ _ _ _ hl hb]
    simp [setLast_append, dataBytes_append, finalizedEntries_append, dataBytes,
      finalizedEntries, mkEntry, finalizeFields, Writer.mk.injEq, Nat.add_assoc]

/-- Closing the writer produces exactly the four-region layout and finalizes
the table: `buildContainer` is `containerOf`. -/
theorem close_runItems (c : Codec) (items : List Item) (hne : items ≠ [])
    (hv : ∀ it ∈ items, ValidName it.name) :
    (close c (runItems c items)).1 =
      ⟨containerOf c items,
       4 + (dataBytes c items).length,
       finalizedEntries c 4 items,
       none,
       some .writeAfterClose⟩ ∧ (close c (runItems c items)).2 = none := by
  obtain ⟨pre, last, rfl⟩ := (items.eq_nil_or_concat').resolve_left hne
  rw [runItems_spec c pre last hv]
  unfold close
  rw [if_neg (by simp)]
  unfold finalizeEntry
  simp only [setLast_append]
  refine ⟨?_, by trivial⟩
  unfold containerOf
  simp [dataBytes_append, finalizedEntries_append, dataBytes, finalizedEntries, mkEntry,
    finalizeFields, Writer.mk.injEq, Nat.add_assoc, List.append_assoc,
    finalizedEntries_length]

/-! ## Record codec lemmas -/

theorem encFixed_length (e : Entry) : (encFixed e).length = 32 := by
  simp [encFixed, encLE_length]

theorem encRecord_length (e : Entry) : (encRecord e).length = 32 + e.Name.length := by
  simp [encRecord, encFixed_length]

theorem encFixed_bytes (e : Entry) : ∀ b ∈ encFixed e, b < 256 := by
  intro b hb
  simp only [encFixed, List.append_assoc, List.mem_append] at hb
  rcases hb with h | h | h | h | h | h <;> exact encLE_bytes _ _ _ h

/-- Decoding the six fixed fields out of an encoded record's `buf`. -/
theorem decFixed (e : Entry) (hg : GoodEntry e) :
    decLE ((encFixed e).take 8) = e.sizeCompressed ∧
    decLE (((encFixed e).drop 8).take 8) = e.Size ∧
    decLE (((encFixed e).drop 16).take 8) = e.index ∧
    decLE (((encFixed e).drop 24).take 4) = e.adler ∧
    decLE (((encFixed e).drop 28).take 2) = e.Perm ∧
    decLE (((encFixed e).drop 30).take 2) = e.Name.length := by
  obtain ⟨h1, h2, h3, h4, h5, h6⟩ := hg
  have e8 : encFixed e = encLE 8 e.sizeCompressed ++ (encLE 8 e.Size ++ (encLE 8 e.index ++
      (encLE 4 e.adler ++ (encLE 2 e.Perm ++ encLE 2 e.Name.length)))) := by
    simp [encFixed, List.append_assoc]
  have e16 : encFixed e = (encLE 8 e.sizeCompressed ++ encLE 8 e.Size) ++ (encLE 8 e.index ++
      (encLE 4 e.adler ++ (encLE 2 e.Perm ++ encLE 2 e.Name.length))) := by
    simp [encFixed, List.append_assoc]
  have e24 : encFixed e = (encLE 8 e.sizeCompressed ++ encLE 8 e.Size ++ encLE 8 e.index) ++
      (encLE 4 e.adler ++ (encLE 2 e.Perm ++ encLE 2 e.Name.length)) := by
    simp [encFixed, List.append_assoc]
  have e28 : encFixed e = (encLE 8 e.sizeCompressed ++ encLE 8 e.Size ++ encLE 8 e.index ++
      encLE 4 e.adler) ++ (encLE 2 e.Perm ++ encLE 2 e.Name.length) := by
    simp [encFixed, List.append_assoc]
  have e30 : encFixed e = (encLE 8 e.sizeCompressed ++ encLE 8 e.Size ++ encLE 8 e.index ++
      encLE 4 e.adler ++ encLE 2 e.Perm) ++ encLE 2 e.Name.length := by
    simp [encFixed, List.append_assoc]
  have pw8 : (256 : Nat) ^ 8 = 2 ^ 64 := by norm_num
  have pw4 : (256 : Nat) ^ 4 = 2 ^ 32 := by norm_num
  have pw2 : (256 : Nat) ^ 2 = 2 ^ 16 := by norm_num
  have p1 : e.sizeCompressed < 256 ^ 8 := by rw [pw8]; exact h1
  have p2 : e.Size < 256 ^ 8 := by rw [pw8]; exact h2
  have p3 : e.index < 256 ^ 8 := by rw [pw8]; exact h3
  have p4 : e.adler < 256 ^ 4 := by rw [pw4]; exact h4
  have p5 : e.Perm < 256 ^ 2 := by rw [pw2]; exact h5
  have p6 : e.Name.length < 256 ^ 2 := by rw [pw2]; exact h6
  refine ⟨?_, ?_, ?_, ?_, ?_, ?_⟩
  · rw [e8, take_app_len _ _ _ (encLE_length _ _), decLE_encLE_of_lt p1]
  · rw [e8, drop_app_len _ _ _ (encLE_length _ _),
      take_app_len _ _ _ (encLE_length _ _), decLE_encLE_of_lt p2]
  · rw [e16, drop_app_len _ _ _ (by simp [encLE_length]),
      take_app_len _ _ _ (encLE_length _ _), decLE_encLE_of_lt p3]
  · rw [e24, drop_app_len _ _ _ (by simp [encLE_length]),
      take_app_len _ _ _ (encLE_length _ _), decLE_encLE_of_lt p4]
  · rw [e28, drop_app_len _ _ _ (by simp [encLE_length]),
      take_app_len _ _ _ (encLE_length _ _), decLE_encLE_of_lt p5]
  · rw [e30, drop_app_len _ _ _ (by simp [encLE_length]),
      List.take_of_length_le (by simp [encLE_length]), decLE_encLE_of_lt p6]

/-- Decoding an encoded record with a nonempty stream after it: the exact
fields and name come back and the rest is untouched. -/
theorem decRecord_mid (b : Bool) (e : Entry) (rest : List Nat) (hg : GoodEntry e)
    (hrest : rest ≠ []) :
    decRecord b (encRecord e ++ rest) = some (e, rest) := by
  obtain ⟨d1, d2, d3, d4, d5, d6⟩ := decFixed e hg
  have hfix : (encRecord e ++ rest).take 32 = encFixed e := by
    rw [encRecord, List.append_assoc]
    exact take_app_len _ _ _ (encFixed_length e)
  have hdrop : (encRecord e ++ rest).drop 32 = e.Name ++ rest := by
    rw [encRecord, List.append_assoc]
    exact drop_app_len _ _ _ (encFixed_length e)
  have hlen : (encRecord e ++ rest).length = 32 + e.Name.length + rest.length := by
    simp [encRecord_length]
  have hrl : 0 < rest.length := List.length_pos.mpr hrest
  unfold decRecord
  rw [if_neg (by omega)]
  simp only [hfix, hdrop, d1, d2, d3, d4, d5, d6]
  rw [if_neg (by simp only [List.length_append]; omega)]
  rw [take_app_len _ _ _ rfl, drop_app_len _ _ _ rfl]

/-- Decoding the final encoded record, the stream ending exactly with its
name bytes: accepted when the final-record flag is set (nonempty name). -/
theorem decRecord_last (e : Entry) (hg : GoodEntry e) (hname : e.Name ≠ []) :
    decRecord true (encRecord e) = some (e, []) := by
  obtain ⟨d1, d2, d3, d4, d5, d6⟩ := decFixed e hg
  have hfix : (encRecord e).take 32 = encFixed e := by
    rw [encRecord]
    exact take_app_len _ _ _ (encFixed_length e)
  have hdrop : (encRecord e).drop 32 = e.Name := by
    rw [encRecord]
    exact drop_app_len _ _ _ (encFixed_length e)
  have hnl : 0 < e.Name.length := List.length_pos.mpr hname
  unfold decRecord
  rw [if_neg (by rw [encRecord_length]; omega)]
  simp only [hfix, hdrop, d1, d2, d3, d4, d5, d6]
  rw [if_pos (by omega), if_pos trivial]
  simp [padTo, List.take_length, List.drop_length]

theorem tableBytes_ne (es : List Entry) (hne : es ≠ []) : tableBytes es ≠ [] := by
  cases es with
  | nil => exact absurd rfl hne
  | cons e es =>
    simp only [tableBytes]
    intro h
    have h2 := congrArg List.length h
    rw [List.length_append, encRecord_length] at h2
    simp at h2

/-- Unrolling one step of the record loop when the record decodes. -/
theorem decodeEntriesRest_succ (k : Nat) (s s1 : List Nat) (e : Entry)
    (h : decRecord (k == 0) s = some (e, s1)) :
    decodeEntriesRest (k + 1) s =
      match decodeEntriesRest k s1 with
      | .error er => .error er
      | .ok (es, rest) => .ok (e :: es, rest) := by
  conv_lhs => unfold decodeEntriesRest
  rw [h]

/-- Decoding a full writer-produced table consumes everything and returns the
entries as written. -/
theorem decodeEntriesRest_table (es : List Entry) (hg : ∀ e ∈ es, GoodEntry e)
    (hn : ∀ e ∈ es, e.Name ≠ []) (hne : es ≠ []) :
    decodeEntriesRest es.length (tableBytes es) = .ok (es, []) := by
  induction es with
  | nil => exact absurd rfl hne
  | cons e es ih =>
    cases es with
    | nil =>
      have h0 : decRecord ((0 : Nat) == 0) (tableBytes [e]) = some (e, []) := by
        have ht : tableBytes [e] = encRecord e := by simp [tableBytes]
        rw [ht]
        exact decRecord_last e (hg e (by simp)) (hn e (by simp))
      rw [show ([e] : List Entry).length = 0 + 1 from rfl,
        decodeEntriesRest_succ 0 _ _ _ h0]
      rfl
    | cons e2 es2 =>
      have hk : (((e2 :: es2).length : Nat) == 0) = false := by simp
      have h0 : decRecord ((e2 :: es2).length == 0) (tableBytes (e :: e2 :: es2)) =
          some (e, tableBytes (e2 :: es2)) := by
        rw [hk]
        have ht : tableBytes (e :: e2 :: es2) = encRecord e ++ tableBytes (e2 :: es2) := rfl
        rw [ht]
        exact decRecord_mid false e _ (hg e (by simp)) (tableBytes_ne _ (by simp))
      rw [show ((e :: e2 :: es2) : List Entry).length = (e2 :: es2).length + 1 from rfl,
        decodeEntriesRest_succ _ _ _ _ h0]
      have ih2 := ih (fun x hx => hg x (by simp [hx])) (fun x hx => hn x (by simp [hx]))
        (by simp)
      rw [ih2]

/-! ## Opening a writer-produced container -/

/-- Every finalized entry of a valid batch fits the record layout and has a
nonempty name. -/
theorem finalized_good (c : Codec) (items : List Item) (h : ValidItems c items) :
    ∀ e ∈ finalizedEntries c 4 items, GoodEntry e ∧ e.Name ≠ [] := by
  obtain ⟨hne, hv, hdata, htb, hcnt⟩ := h
  intro e he
  obtain ⟨it, hit, h1, h2, h3, h4, h5, h6, h7⟩ := finalizedEntries_mem c 4 items e he
  obtain ⟨⟨hl, hb⟩, hperm, hnlen, hclen, hbytes⟩ := hv it hit
  refine ⟨⟨by omega, by rw [h2]; exact hclen, by omega, ?_, by rw [h3]; exact hperm,
    by rw [h1]; exact hnlen⟩, ?_⟩
  · rw [h5]; exact adler32_lt _
  · rw [h1]; exact validName_ne _ hl

theorem finalizedEntries_getD (c : Codec) (i : Nat) (l : List Item) (k : Nat)
    (hk : k < l.length) :
    (finalizedEntries c i l).getD k default =
      mkEntry c (i + (dataBytes c (l.take k)).length) (l.getD k default) := by
  induction l generalizing i k with
  | nil => simp at hk
  | cons it l ih =>
    cases k with
    | zero => simp [finalizedEntries, dataBytes]
    | succ k =>
      simp only [finalizedEntries, List.getD_cons_succ, List.take_succ_cons, dataBytes,
        List.length_append]
      rw [ih _ _ (by simpa using hk), Nat.add_assoc]

/-- Splitting the data region at entry `k`. -/
theorem dataBytes_split (c : Codec) (items : List Item) (k : Nat) (hk : k < items.length) :
    dataBytes c items = dataBytes c (items.take k) ++
      (c.compress ((items.getD k default).content) ++ dataBytes c (items.drop (k + 1))) := by
  conv_lhs => rw [← List.take_append_drop k items]
  rw [dataBytes_append]
  congr 1
  rw [List.drop_eq_getElem_cons hk]
  simp only [dataBytes, List.getD_eq_getElem _ _ hk]

/-- The name of the footer-forming suffix. -/
def footerOf (c : Codec) (items : List Item) : List Nat :=
  encLE 8 (4 + (dataBytes c items).length) ++
    encLE 4 (adler32 (c.compress (tableBytes (finalizedEntries c 4 items)))) ++
    encLE 4 items.length

theorem containerOf_shape (c : Codec) (items : List Item) :
    containerOf c items = (headerBytes ++ dataBytes c items) ++
      (c.compress (tableBytes (finalizedEntries c 4 items)) ++ footerOf c items) := by
  simp [containerOf, footerOf, List.append_assoc]

theorem footerOf_length (c : Codec) (items : List Item) : (footerOf c items).length = 16 := by
  simp [footerOf, encLE_length]

theorem containerOf_length (c : Codec) (items : List Item) :
    (containerOf c items).length = 4 + (dataBytes c items).length +
      (c.compress (tableBytes (finalizedEntries c 4 items))).length + 16 := by
  rw [containerOf_shape]
  simp [footerOf_length, headerBytes]
  omega

/-- Opening a container built from a valid batch succeeds and lists the
finalized entries. -/
theorem newReader_containerOf (c : Codec) (items : List Item) (h : ValidItems c items) :
    newReader c (containerOf c items) = .ok (finalizedEntries c 4 items) := by
  obtain ⟨hne, hv, hdata, htb, hcnt⟩ := h
  have hshape := containerOf_shape c items
  have hhdr : (headerBytes ++ dataBytes c items).length = 4 + (dataBytes c items).length := by
    simp [headerBytes]
    omega
  have hslen := containerOf_length c items
  have hctlen : 0 < (c.compress (tableBytes (finalizedEntries c 4 items))).length := by
    have := c.comp_ne (tableBytes (finalizedEntries c 4 items))
    exact List.length_pos.mpr this
  -- header
  have htake4 : padTo 4 ((containerOf c items).take 4) = headerBytes := by
    rw [hshape, List.append_assoc, take_app_len _ _ _ (by simp [headerBytes])]
    rfl
  -- footer
  have hfoot : (containerOf c items).drop ((containerOf c items).length - 16) =
      footerOf c items := by
    have hform : containerOf c items =
        ((headerBytes ++ dataBytes c items) ++
          c.compress (tableBytes (finalizedEntries c 4 items))) ++ footerOf c items := by
      rw [hshape]
      simp [List.append_assoc]
    rw [hform, drop_app_len _ _ _ (by simp [footerOf_length]; omega)]
  have hfootT : (footerOf c items).take 8 = encLE 8 (4 + (dataBytes c items).length) := by
    rw [footerOf, List.append_assoc]
    exact take_app_len _ _ _ (encLE_length _ _)
  have hfootA : ((footerOf c items).drop 8).take 4 =
      encLE 4 (adler32 (c.compress (tableBytes (finalizedEntries c 4 items)))) := by
    rw [footerOf, List.append_assoc, drop_app_len _ _ _ (encLE_length _ _)]
    exact take_app_len _ _ _ (encLE_length _ _)
  have hfootC : ((footerOf c items).drop 12).take 4 = encLE 4 items.length := by
    rw [footerOf, drop_app_len _ _ _ (by simp [encLE_length])]
    exact List.take_of_length_le (by simp [encLE_length])
  have hdecT : decLE ((footerOf c items).take 8) = 4 + (dataBytes c items).length := by
    rw [hfootT]
    exact decLE_encLE_of_lt (by norm_num; omega)
  have hdecA : decLE (((footerOf c items).drop 8).take 4) =
      adler32 (c.compress (tableBytes (finalizedEntries c 4 items))) := by
    rw [hfootA]
    refine decLE_encLE_of_lt ?_
    have := adler32_lt (c.compress (tableBytes (finalizedEntries c 4 items)))
    norm_num
    omega
  have hdecC : decLE (((footerOf c items).drop 12).take 4) = items.length := by
    rw [hfootC]
    refine decLE_encLE_of_lt (by norm_num; omega)
  -- table
  have hdropT : (containerOf c items).drop (4 + (dataBytes c items).length) =
      c.compress (tableBytes (finalizedEntries c 4 items)) ++ footerOf c items := by
    rw [hshape]
    exact drop_app_len _ _ _ hhdr
  have hdecomp : c.decompress ((containerOf c items).drop (4 + (dataBytes c items).length)) =
      some (tableBytes (finalizedEntries c 4 items),
        (c.compress (tableBytes (finalizedEntries c 4 items))).length) := by
    rw [hdropT]
    exact c.comp_roundtrip _ _ htb
  have hfe : (finalizedEntries c 4 items).length = items.length :=
    finalizedEntries_length c 4 items
  have hdecE : decodeEntries items.length (tableBytes (finalizedEntries c 4 items)) =
      .ok (finalizedEntries c 4 items) := by
    unfold decodeEntries
    rw [← hfe, decodeEntriesRest_table (finalizedEntries c 4 items)
      (fun e he => (finalized_good c items ⟨hne, hv, hdata, htb, hcnt⟩ e he).1)
      (fun e he => (finalized_good c items ⟨hne, hv, hdata, htb, hcnt⟩ e he).2)
      (by rw [← List.length_pos, hfe, List.length_pos]; exact hne)]
    rfl
  have hadlerT : adler32 (((containerOf c items).drop (4 + (dataBytes c items).length)).take
      (c.compress (tableBytes (finalizedEntries c 4 items))).length) =
      adler32 (c.compress (tableBytes (finalizedEntries c 4 items))) := by
    rw [hdropT, take_app_len _ _ _ rfl]
  -- assemble
  unfold newReader
  rw [if_neg (by omega)]
  simp only [htake4]
  rw [if_neg (by decide), if_neg (by decide), if_neg (by omega)]
  simp only [hfoot, hdecT, hdecA, hdecC]
  rw [if_neg (by omega)]
  simp only [hdecomp, hdecE, hadlerT]
  rw [if_neg (by simp)]

/-! ## Reading an entry back -/

/-- A full-length read on a fresh entry view: the whole decompressed stream
comes back together with `io.EOF`, and the terminal state is latched. -/
theorem eread_full (er : EReader) (he : er.err = none) (hc : er.count = er.d.length) :
    eread er er.count = ((er.d, some .eof), ⟨[], 0, er.acc, er.adler, some .eof⟩) := by
  by_cases h0 : 0 < er.d.length
  · have hne : ¬(er.d.length ≤ 0) := by omega
    simp [eread, he, hc, Nat.min_self, h0, List.take_length, List.drop_length]
  · have hd0 : er.d = [] := List.length_eq_zero.mp (by omega)
    simp [eread, he, hc, hd0]

/-- Opening entry `k` of a valid container: the view carries the entry's
decompressed content, its declared size, and matching checksums. -/
theorem eopen_containerOf (c : Codec) (items : List Item) (h : ValidItems c items)
    (k : Nat) (hk : k < items.length) :
    eopen c (containerOf c items) ((finalizedEntries c 4 items).getD k default) =
      some ⟨(items.getD k default).content, (items.getD k default).content.length,
        adler32 (c.compress (items.getD k default).content),
        adler32 (c.compress (items.getD k default).content), none⟩ := by
  obtain ⟨hne, hv, hdata, htb, hcnt⟩ := h
  have hget := finalizedEntries_getD c 4 items k hk
  have hsplit := dataBytes_split c items k hk
  have hxle : (dataBytes c (items.take k)).length ≤ (dataBytes c items).length := by
    have := congrArg List.length hsplit
    simp only [List.length_append] at this
    omega
  have hmem : items.getD k default ∈ items := by
    rw [List.getD_eq_getElem _ _ hk]
    exact List.getElem_mem _
  have hclt : (items.getD k default).content.length < 2 ^ 64 :=
    (hv _ hmem).2.2.2.1
  have hdropk : (containerOf c items).drop (4 + (dataBytes c (items.take k)).length) =
      c.compress ((items.getD k default).content) ++
        (dataBytes c (items.drop (k + 1)) ++
          (c.compress (tableBytes (finalizedEntries c 4 items)) ++ footerOf c items)) := by
    have hform : containerOf c items =
        (headerBytes ++ dataBytes c (items.take k)) ++
          (c.compress ((items.getD k default).content) ++
            (dataBytes c (items.drop (k + 1)) ++
              (c.compress (tableBytes (finalizedEntries c 4 items)) ++ footerOf c items))) := by
      rw [containerOf_shape c items]
      conv_lhs => rw [hsplit]
      simp [List.append_assoc]
    rw [hform]
    exact drop_app_len _ _ _ (by simp [headerBytes]; omega)
  have hdecomp : c.decompress ((containerOf c items).drop
      (4 + (dataBytes c (items.take k)).length)) =
      some ((items.getD k default).content,
        (c.compress ((items.getD k default).content)).length) := by
    rw [hdropk]
    exact c.comp_roundtrip _ _ hclt
  have hacc : adler32 (((containerOf c items).drop
      (4 + (dataBytes c (items.take k)).length)).take
        (c.compress ((items.getD k default).content)).length) =
      adler32 (c.compress ((items.getD k default).content)) := by
    rw [hdropk, take_app_len _ _ _ rfl]
  rw [hget]
  unfold eopen
  rw [if_neg (by simp only [mkEntry]; omega)]
  simp only [mkEntry, hdecomp, hacc]

/-! ## Claim C1: round trip -/

/-- Everything claim C1 promises of a finished container: open succeeds, the
entry list matches the written batch in order (names, permission bits,
sizes), and every entry's view reads back the exact content, ends with
`io.EOF`, and closes without a checksum error. -/
def RoundTrip (c : Codec) (items : List Item) : Prop :=
  ∃ es, newReader c (buildContainer c items) = .ok es ∧
    es.length = items.length ∧
    ∀ k, k < items.length →
      (es.getD k default).Name = (items.getD k default).name ∧
      (es.getD k default).Perm = (items.getD k default).perm ∧
      (es.getD k default).Size = (items.getD k default).content.length ∧
      ∃ er, eopen c (buildContainer c items) (es.getD k default) = some er ∧
        eread er (es.getD k default).Size =
          (((items.getD k default).content, some .eof),
            ⟨[], 0, er.acc, er.adler, some .eof⟩) ∧
        eclose (eread er (es.getD k default).Size).2 = none

theorem buildContainer_eq (c : Codec) (items : List Item) (hne : items ≠ [])
    (hv : ∀ it ∈ items, ValidName it.name) :
    buildContainer c items = containerOf c items := by
  unfold buildContainer
  rw [(close_runItems c items hne hv).1]

/-- C1: for every sequence of entries (name, content bytes, permission bits)
written via `Create`, `SetPerms` and `Write` and finalized by `Close` (all
names valid), `NewReader` on the produced byte stream succeeds and yields the
entries in insertion order; every entry's listed name and permission bits
equal those written, reading its `EntryReader` to end-of-stream yields
exactly the original content bytes (ending in `io.EOF`), and closing it
reports no checksum error. -/
theorem c1_round_trip (c : Codec) (items : List Item) (h : ValidItems c items) :
    RoundTrip c items := by
  obtain ⟨hne, hv, hdata, htb, hcnt⟩ := h
  have hvn : ∀ it ∈ items, ValidName it.name := fun it hit => (hv it hit).1
  have hbc := buildContainer_eq c items hne hvn
  refine ⟨finalizedEntries c 4 items, ?_, finalizedEntries_length c 4 items, ?_⟩
  · rw [hbc]
    exact newReader_containerOf c items ⟨hne, hv, hdata, htb, hcnt⟩
  · intro k hk
    have hget := finalizedEntries_getD c 4 items k hk
    refine ⟨by rw [hget]; rfl, by rw [hget]; rfl, by rw [hget]; rfl, ?_⟩
    refine ⟨⟨(items.getD k default).content, (items.getD k default).content.length,
      adler32 (c.compress (items.getD k default).content),
      adler32 (c.compress (items.getD k default).content), none⟩, ?_, ?_, ?_⟩
    · rw [hbc]
      exact eopen_containerOf c items ⟨hne, hv, hdata, htb, hcnt⟩ k hk
    · have hfull := eread_full ⟨(items.getD k default).content,
        (items.getD k default).content.length,
        adler32 (c.compress (items.getD k default).content),
        adler32 (c.compress (items.getD k default).content), none⟩ rfl rfl
      rw [hget]
      exact hfull
    · have hfull := eread_full ⟨(items.getD k default).content,
        (items.getD k default).content.length,
        adler32 (c.compress (items.getD k default).content),
        adler32 (c.compress (items.getD k default).content), none⟩ rfl rfl
      rw [hget]
      rw [show ((mkEntry c (4 + (dataBytes c (items.take k)).length)
        (items.getD k default)).Size) = (items.getD k default).content.length from rfl]
      rw [hfull]
      simp [eclose]

/-- Witness for C1 at a concrete two-entry batch over the concrete codec. -/
theorem c1_round_trip_w :
    ValidItems lenCodec [⟨[97], 420, [104, 105, 33]⟩, ⟨[100, 105, 114, 47, 98], 493, []⟩] ∧
      RoundTrip lenCodec [⟨[97], 420, [104, 105, 33]⟩, ⟨[100, 105, 114, 47, 98], 493, []⟩] :=
  ⟨by decide, c1_round_trip _ _ (by decide)⟩

/-! ## Claim C7: offsets and layout invariants -/

theorem finalizedEntries_map_name (c : Codec) (i : Nat) (items : List Item) :
    (finalizedEntries c i items).map Entry.Name = items.map Item.name := by
  induction items generalizing i with
  | nil => rfl
  | cons it l ih => simp [finalizedEntries, mkEntry, ih]

theorem dataBytes_take_succ (c : Codec) (items : List Item) (k : Nat)
    (hk : k < items.length) :
    (dataBytes c (items.take (k + 1))).length =
      (dataBytes c (items.take k)).length +
        (c.compress ((items.getD k default).content)).length := by
  rw [List.take_succ, dataBytes_append]
  simp [List.getElem?_eq_getElem hk, dataBytes, List.getD_eq_getElem _ _ hk]

theorem dataBytes_take_le (c : Codec) (items : List Item) (m k : Nat) (hmk : m ≤ k) :
    (dataBytes c (items.take m)).length ≤ (dataBytes c (items.take k)).length := by
  have h1 : items.take m ++ (items.take k).drop m = items.take k := by
    have h2 := List.take_append_drop m (items.take k)
    rwa [List.take_take, Nat.min_eq_left hmk] at h2
  calc (dataBytes c (items.take m)).length
      ≤ (dataBytes c (items.take m)).length +
          (dataBytes c ((items.take k).drop m)).length := Nat.le_add_right _ _
    _ = (dataBytes c (items.take m ++ (items.take k).drop m)).length := by
        rw [dataBytes_append, List.length_append]
    _ = (dataBytes c (items.take k)).length := by rw [h1]

theorem containerOf_drop_at (c : Codec) (items : List Item) (k : Nat)
    (hk : k < items.length) :
    ∃ r, (containerOf c items).drop (4 + (dataBytes c (items.take k)).length) =
      c.compress ((items.getD k default).content) ++ r := by
  have hsplit := dataBytes_split c items k hk
  refine ⟨dataBytes c (items.drop (k + 1)) ++
    (c.compress (tableBytes (finalizedEntries c 4 items)) ++ footerOf c items), ?_⟩
  have hform : containerOf c items =
      (headerBytes ++ dataBytes c (items.take k)) ++
        (c.compress ((items.getD k default).content) ++
          (dataBytes c (items.drop (k + 1)) ++
            (c.compress (tableBytes (finalizedEntries c 4 items)) ++ footerOf c items))) := by
    rw [containerOf_shape c items]
    conv_lhs => rw [hsplit]
    simp [List.append_assoc]
  rw [hform]
  exact drop_app_len _ _ _ (by simp [headerBytes]; omega)

theorem containerOf_footer (c : Codec) (items : List Item) :
    (containerOf c items).drop ((containerOf c items).length - 16) = footerOf c items := by
  have hform : containerOf c items =
      ((headerBytes ++ dataBytes c items) ++
        c.compress (tableBytes (finalizedEntries c 4 items))) ++ footerOf c items := by
    rw [containerOf_shape c items]
    simp [List.append_assoc]
  rw [hform, drop_app_len _ _ _ (by simp [footerOf_length]; omega)]

/-- The layout invariants of claim C7 for one finished container: entries in
append order, offsets that are the header size plus the earlier compressed
sizes, strictly increasing and pointing at the compressed streams in Data,
and a footer table-offset field just past the last entry's data. -/
def LayoutSpec (c : Codec) (items : List Item) : Prop :=
  (close c (runItems c items)).1.entries = finalizedEntries c 4 items ∧
  (finalizedEntries c 4 items).map Entry.Name = items.map Item.name ∧
  (∀ k, k < items.length →
    ((finalizedEntries c 4 items).getD k default).index =
      4 + (dataBytes c (items.take k)).length) ∧
  (∀ j k, j < k → k < items.length →
    ((finalizedEntries c 4 items).getD j default).index <
      ((finalizedEntries c 4 items).getD k default).index) ∧
  (∀ k, k < items.length → ∃ r,
    (buildContainer c items).drop ((finalizedEntries c 4 items).getD k default).index =
      c.compress ((items.getD k default).content) ++ r) ∧
  decLE (((buildContainer c items).drop ((buildContainer c items).length - 16)).take 8) =
    4 + (dataBytes c items).length

/-- C7: in every container the Writer produces, the table records appear in
append order; each finalized entry's offset is the header size plus the sum
of the compressed sizes of the earlier entries (so offsets are strictly
increasing and point at the entries' compressed streams in Data); and the
footer's table offset is the position immediately after the last entry's
compressed data, recorded just before the Table was written. -/
theorem c7_layout (c : Codec) (items : List Item) (h : ValidItems c items) :
    LayoutSpec c items := by
  unfold LayoutSpec
  obtain ⟨hne, hv, hdata, htb, hcnt⟩ := h
  have hvn : ∀ it ∈ items, ValidName it.name := fun it hit => (hv it hit).1
  have hbc := buildContainer_eq c items hne hvn
  have hidx : ∀ k, k < items.length →
      ((finalizedEntries c 4 items).getD k default).index =
        4 + (dataBytes c (items.take k)).length := by
    intro k hk
    rw [finalizedEntries_getD c 4 items k hk]
    rfl
  refine ⟨(close_runItems c items hne hvn).1 ▸ rfl, finalizedEntries_map_name c 4 items,
    hidx, ?_, ?_, ?_⟩
  · intro j k hjk hk
    rw [hidx j (by omega), hidx k hk]
    have h1 := dataBytes_take_succ c items j (by omega)
    have h2 := dataBytes_take_le c items (j + 1) k (by omega)
    have h3 : 0 < (c.compress ((items.getD j default).content)).length :=
      List.length_pos.mpr (c.comp_ne _)
    omega
  · intro k hk
    rw [hbc, hidx k hk]
    exact containerOf_drop_at c items k hk
  · rw [hbc, containerOf_footer c items]
    have hfootT : (footerOf c items).take 8 =
        encLE 8 (4 + (dataBytes c items).length) := by
      rw [footerOf, List.append_assoc]
      exact take_app_len _ _ _ (encLE_length _ _)
    rw [hfootT]
    exact decLE_encLE_of_lt (by norm_num; omega)

/-- Witness for C7 at a concrete two-entry batch over the concrete codec. -/
theorem c7_layout_w :
    ValidItems lenCodec [⟨[97], 420, [104, 105]⟩, ⟨[98], 493, [5, 6, 7]⟩] ∧
      LayoutSpec lenCodec [⟨[97], 420, [104, 105]⟩, ⟨[98], 493, [5, 6, 7]⟩] :=
  ⟨by decide, c7_layout _ _ (by decide)⟩

/-! ## Claim C2: the record codec is a bijection on well-formed records -/

/-- A decoded mid-table record is the decode of exactly one byte string: the
record loop's reads can be undone byte for byte. -/
theorem decRecord_inv (s : List Nat) (e : Entry) (rest : List Nat)
    (hbytes : ∀ b ∈ s, b < 256) (h : decRecord false s = some (e, rest)) :
    s = encRecord e ++ rest := by
  unfold decRecord at h
  by_cases h32 : s.length ≤ 32
  · rw [if_pos h32] at h
    exact absurd h (by simp)
  rw [if_neg h32] at h
  simp only [] at h
  by_cases heof : (s.drop 32).length ≤ decLE (((s.take 32).drop 30).take 2)
  · rw [if_pos heof] at h
    exact absurd h (by simp)
  rw [if_neg heof] at h
  simp only [Option.some.injEq, Prod.mk.injEq] at h
  obtain ⟨he, hrest⟩ := h
  have hblen : (s.take 32).length = 32 := by
    rw [List.length_take]
    omega
  have hs1len : 32 + (s.drop 32).length = s.length := by
    rw [List.length_drop]
    omega
  -- byte-hood of the slices
  have hb : ∀ x ∈ s.take 32, x < 256 := fun x hx => hbytes x (List.mem_of_mem_take hx)
  have hslice : ∀ m k : Nat, encLE k (decLE (((s.take 32).drop m).take k)) =
      ((s.take 32).drop m).take k ∨ True := fun m k => Or.inr trivial
  -- the six slices reassemble the fixed buffer
  have hchain : ∀ (l : List Nat) (m k : Nat), l.drop m = (l.drop m).take k ++ l.drop (m + k) := by
    intro l m k
    conv_lhs => rw [← List.take_append_drop k (l.drop m)]
    rw [List.drop_drop]
  have hb0 : s.take 32 = (s.take 32).take 8 ++ (s.take 32).drop 8 :=
    (List.take_append_drop 8 (s.take 32)).symm
  have hb8 : (s.take 32).drop 8 = ((s.take 32).drop 8).take 8 ++ (s.take 32).drop 16 :=
    hchain (s.take 32) 8 8
  have hb16 : (s.take 32).drop 16 = ((s.take 32).drop 16).take 8 ++ (s.take 32).drop 24 :=
    hchain (s.take 32) 16 8
  have hb24 : (s.take 32).drop 24 = ((s.take 32).drop 24).take 4 ++ (s.take 32).drop 28 :=
    hchain (s.take 32) 24 4
  have hb28 : (s.take 32).drop 28 = ((s.take 32).drop 28).take 2 ++ (s.take 32).drop 30 :=
    hchain (s.take 32) 28 2
  have hb30 : (s.take 32).drop 30 = ((s.take 32).drop 30).take 2 := by
    have h1 : ((s.take 32).drop 30).length = 2 := by
      rw [List.length_drop, hblen]
    exact (@List.take_of_length_le _ 2 ((s.take 32).drop 30) (by omega)).symm
  -- slice lengths
  have hlt : ∀ m k : Nat, m + k ≤ 32 → (((s.take 32).drop m).take k).length = k := by
    intro m k hmk
    rw [List.length_take, List.length_drop, hblen]
    omega
  have henc : ∀ m k : Nat, m + k ≤ 32 →
      encLE k (decLE (((s.take 32).drop m).take k)) = ((s.take 32).drop m).take k := by
    intro m k hmk
    have hx := encLE_decLE (((s.take 32).drop m).take k)
      (fun x hx => hb x (List.mem_of_mem_drop (List.mem_of_mem_take hx)))
    rwa [hlt m k hmk] at hx
  -- the name
  have hname : e.Name = (s.drop 32).take (decLE (((s.take 32).drop 30).take 2)) := by
    rw [← he]
  have hnlen : e.Name.length = decLE (((s.take 32).drop 30).take 2) := by
    rw [hname, List.length_take]
    omega
  -- reassemble
  have hfix : encFixed e = s.take 32 := by
    rw [← he]
    show encLE 8 (decLE ((s.take 32).take 8)) ++
        encLE 8 (decLE (((s.take 32).drop 8).take 8)) ++
        encLE 8 (decLE (((s.take 32).drop 16).take 8)) ++
        encLE 4 (decLE (((s.take 32).drop 24).take 4)) ++
        encLE 2 (decLE (((s.take 32).drop 28).take 2)) ++
        encLE 2 (((s.drop 32).take (decLE (((s.take 32).drop 30).take 2))).length) = s.take 32
    have h0 : (s.take 32).take 8 = ((s.take 32).drop 0).take 8 := by rw [List.drop_zero]
    have hlen2 : ((s.drop 32).take (decLE (((s.take 32).drop 30).take 2))).length =
        decLE (((s.take 32).drop 30).take 2) := by
      rw [List.length_take]
      omega
    rw [hlen2, h0, henc 0 8 (by omega), henc 8 8 (by omega), henc 16 8 (by omega),
      henc 24 4 (by omega), henc 28 2 (by omega), henc 30 2 (by omega), List.drop_zero]
    rw [List.append_assoc, List.append_assoc, List.append_assoc, List.append_assoc,
      ← hb30, ← hb28, ← hb24, ← hb16, ← hb8, ← hb0]
  rw [encRecord, hfix, hname, ← hrest]
  rw [List.append_assoc, List.take_append_drop, List.take_append_drop]

/-- C2: each table record is a fixed 32-byte little-endian sequence in the
order compressed size, uncompressed size, offset, checksum, permission bits,
name length, followed by the raw name bytes; encoding then decoding a
well-formed record is the identity, and any decoded record re-encodes to
exactly the bytes consumed. -/
theorem c2_record_codec (e : Entry) (hg : GoodEntry e) :
    (encFixed e).length = 32 ∧
    encRecord e = encFixed e ++ e.Name ∧
    (∀ rest, rest ≠ [] → decRecord false (encRecord e ++ rest) = some (e, rest)) ∧
    (e.Name ≠ [] → decRecord true (encRecord e) = some (e, [])) ∧
    (∀ s rest, (∀ b ∈ s, b < 256) → decRecord false s = some (e, rest) →
      s = encRecord e ++ rest) := by
  refine ⟨encFixed_length e, rfl, ?_, ?_, ?_⟩
  · intro rest hrest
    exact decRecord_mid false e rest hg hrest
  · intro hname
    exact decRecord_last e hg hname
  · intro s rest hb h
    exact decRecord_inv s e rest hb h

/-- Witness for C2 at a concrete record. -/
theorem c2_record_codec_w :
    GoodEntry ⟨[97, 98], 5, 420, 7, 40, 123⟩ ∧
    ((encFixed ⟨[97, 98], 5, 420, 7, 40, 123⟩).length = 32 ∧
    encRecord ⟨[97, 98], 5, 420, 7, 40, 123⟩ =
      encFixed ⟨[97, 98], 5, 420, 7, 40, 123⟩ ++ [97, 98] ∧
    (∀ rest, rest ≠ [] → decRecord false (encRecord ⟨[97, 98], 5, 420, 7, 40, 123⟩ ++ rest) =
      some (⟨[97, 98], 5, 420, 7, 40, 123⟩, rest)) ∧
    (([97, 98] : List Nat) ≠ [] → decRecord true (encRecord ⟨[97, 98], 5, 420, 7, 40, 123⟩) =
      some (⟨[97, 98], 5, 420, 7, 40, 123⟩, [])) ∧
    (∀ s rest, (∀ b ∈ s, b < 256) → decRecord false s = some (⟨[97, 98], 5, 420, 7, 40, 123⟩, rest) →
      s = encRecord ⟨[97, 98], 5, 420, 7, 40, 123⟩ ++ rest)) :=
  ⟨by decide, c2_record_codec ⟨[97, 98], 5, 420, 7, 40, 123⟩ (by decide)⟩

/-! ## Claim C6: end-of-input asymmetry in the record loop -/

/-- A stream of at most 32 bytes dies in the fixed-portion read, whatever the
final-record flag says. -/
theorem decRecord_short (b : Bool) (t : List Nat) (ht : t.length ≤ 32) :
    decRecord b t = none := by
  unfold decRecord
  rw [if_pos ht]

/-- A non-final record whose name bytes are cut off (or end exactly at
end-of-input) is rejected. -/
theorem decRecord_name_short (e : Entry) (u : List Nat) (hg : GoodEntry e)
    (hu : u.length ≤ e.Name.length) :
    decRecord false (encFixed e ++ u) = none := by
  obtain ⟨d1, d2, d3, d4, d5, d6⟩ := decFixed e hg
  by_cases h32 : (encFixed e ++ u).length ≤ 32
  · exact decRecord_short false _ h32
  have hfix : (encFixed e ++ u).take 32 = encFixed e :=
    take_app_len _ _ _ (encFixed_length e)
  have hdrop : (encFixed e ++ u).drop 32 = u :=
    drop_app_len _ _ _ (encFixed_length e)
  unfold decRecord
  rw [if_neg h32]
  simp only [hfix, hdrop, d6]
  rw [if_pos hu]
  rfl

/-- One step of the loop when the record fails to decode. -/
theorem decodeEntriesRest_succ_none (k : Nat) (s : List Nat)
    (h : decRecord (k == 0) s = none) :
    decodeEntriesRest (k + 1) s = .error .unexpectedEOF := by
  conv_lhs => unfold decodeEntriesRest
  rw [h]

/-- A record whose stream ends exactly at its name bytes is rejected when it
is not the final record. -/
theorem decRecord_exact_nonfinal (e : Entry) (hg : GoodEntry e) :
    decRecord false (encRecord e) = none := by
  rw [encRecord]
  exact decRecord_name_short e e.Name hg (le_refl _)

/-- Truncation inside (or exactly at the end of) the fixed 32-byte portion of
the next expected record is fatal, wherever it happens. -/
theorem decodeEntriesRest_trunc_fixed (es : List Entry) (m : Nat) (t : List Nat)
    (hg : ∀ e ∈ es, GoodEntry e) (ht : t.length ≤ 32) :
    decodeEntriesRest (es.length + (m + 1)) (tableBytes es ++ t) =
      .error .unexpectedEOF := by
  induction es with
  | nil =>
    have h0 : tableBytes [] ++ t = t := by simp [tableBytes]
    rw [h0, show (([] : List Entry).length + (m + 1)) = m + 1 from by simp]
    exact decodeEntriesRest_succ_none m t (decRecord_short _ t ht)
  | cons e es ih =>
    have hstep : (e :: es).length + (m + 1) = (es.length + (m + 1)) + 1 := by
      simp
      omega
    rw [hstep]
    have htb : tableBytes (e :: es) ++ t = encRecord e ++ (tableBytes es ++ t) := by
      simp [tableBytes, List.append_assoc]
    rw [htb]
    by_cases hrest : tableBytes es ++ t = []
    · obtain ⟨h2a, h2b⟩ := List.append_eq_nil.mp hrest
      have hes : es = [] := by
        by_contra hne2
        exact tableBytes_ne es hne2 h2a
      subst hes
      subst h2b
      rw [hrest, List.append_nil,
        show (([] : List Entry).length + (m + 1)) = m + 1 from by simp]
      refine decodeEntriesRest_succ_none _ _ ?_
      rw [show ((m + 1 : Nat) == 0) = false from by simp]
      exact decRecord_exact_nonfinal e (hg e (by simp))
    · have hmid : decRecord ((es.length + (m + 1) : Nat) == 0) (encRecord e ++ (tableBytes es ++ t)) =
          some (e, tableBytes es ++ t) :=
        decRecord_mid _ e _ (hg e (by simp)) hrest
      rw [decodeEntriesRest_succ _ _ _ _ hmid,
        ih (fun x hx => hg x (by simp [hx]))]

/-- Truncation inside (or exactly at the end of) a non-final record's name is
fatal. -/
theorem decodeEntriesRest_trunc_name (es : List Entry) (m : Nat) (e' : Entry)
    (u : List Nat) (hg : ∀ e ∈ es, GoodEntry e) (hg' : GoodEntry e')
    (hu : u.length ≤ e'.Name.length) :
    decodeEntriesRest (es.length + 1 + (m + 1)) (tableBytes es ++ (encFixed e' ++ u)) =
      .error .unexpectedEOF := by
  induction es with
  | nil =>
    show decodeEntriesRest (0 + 1 + (m + 1)) (tableBytes [] ++ (encFixed e' ++ u)) = _
    have h0 : tableBytes [] ++ (encFixed e' ++ u) = encFixed e' ++ u := by simp [tableBytes]
    rw [h0, show (0 + 1 + (m + 1) : Nat) = (m + 1) + 1 from by omega]
    refine decodeEntriesRest_succ_none _ _ ?_
    rw [show ((m + 1 : Nat) == 0) = false from by simp]
    exact decRecord_name_short e' u hg' hu
  | cons e es ih =>
    have hstep : (e :: es).length + 1 + (m + 1) = (es.length + 1 + (m + 1)) + 1 := by
      simp
      omega
    rw [hstep]
    have htb : tableBytes (e :: es) ++ (encFixed e' ++ u) =
        encRecord e ++ (tableBytes es ++ (encFixed e' ++ u)) := by
      simp [tableBytes, List.append_assoc]
    rw [htb]
    have hrest : tableBytes es ++ (encFixed e' ++ u) ≠ [] := by
      intro hx
      have := congrArg List.length hx
      simp [encFixed_length] at this
    have hmid : decRecord ((es.length + 1 + (m + 1) : Nat) == 0)
        (encRecord e ++ (tableBytes es ++ (encFixed e' ++ u))) =
        some (e, tableBytes es ++ (encFixed e' ++ u)) :=
      decRecord_mid _ e _ (hg e (by simp)) hrest
    rw [decodeEntriesRest_succ _ _ _ _ hmid,
      ih (fun x hx => hg x (by simp [hx]))]

/-- C6: decoding `entry_count` records accepts end-of-input exactly at the
end of the final record's name, but end-of-input while reading any non-final
record's name, or anywhere in the fixed 32-byte portion of any record
(including the final one), fails with the unexpected-EOF truncation error. -/
theorem c6_eof_asymmetry (es : List Entry) (hg : ∀ e ∈ es, GoodEntry e)
    (hn : ∀ e ∈ es, e.Name ≠ []) (hne : es ≠ []) :
    decodeEntries es.length (tableBytes es) = .ok es ∧
    (∀ (m : Nat) (e' : Entry) (u : List Nat), GoodEntry e' → u.length ≤ e'.Name.length →
      decodeEntries (es.length + 1 + (m + 1)) (tableBytes es ++ (encFixed e' ++ u)) =
        .error .unexpectedEOF) ∧
    (∀ (m : Nat) (t : List Nat), t.length ≤ 32 →
      decodeEntries (es.length + (m + 1)) (tableBytes es ++ t) =
        .error .unexpectedEOF) := by
  refine ⟨?_, ?_, ?_⟩
  · unfold decodeEntries
    rw [decodeEntriesRest_table es hg hn hne]
    rfl
  · intro m e' u hg' hu
    unfold decodeEntries
    rw [decodeEntriesRest_trunc_name es m e' u hg hg' hu]
    rfl
  · intro m t ht
    unfold decodeEntries
    rw [decodeEntriesRest_trunc_fixed es m t hg ht]
    rfl

/-- Witness for C6 at a concrete one-record table. -/
theorem c6_eof_asymmetry_w :
    (∀ e ∈ [(⟨[120], 3, 420, 9, 4, 77⟩ : Entry)], GoodEntry e) ∧
    (∀ e ∈ [(⟨[120], 3, 420, 9, 4, 77⟩ : Entry)], e.Name ≠ []) ∧
    ([(⟨[120], 3, 420, 9, 4, 77⟩ : Entry)] ≠ []) ∧
    (decodeEntries 1 (tableBytes [⟨[120], 3, 420, 9, 4, 77⟩]) =
      .ok [⟨[120], 3, 420, 9, 4, 77⟩] ∧
    (∀ (m : Nat) (e' : Entry) (u : List Nat), GoodEntry e' → u.length ≤ e'.Name.length →
      decodeEntries (1 + 1 + (m + 1)) (tableBytes [⟨[120], 3, 420, 9, 4, 77⟩] ++
        (encFixed e' ++ u)) = .error .unexpectedEOF) ∧
    (∀ (m : Nat) (t : List Nat), t.length ≤ 32 →
      decodeEntries (1 + (m + 1)) (tableBytes [⟨[120], 3, 420, 9, 4, 77⟩] ++ t) =
        .error .unexpectedEOF)) :=
  ⟨by decide, by decide, by decide,
    c6_eof_asymmetry [⟨[120], 3, 420, 9, 4, 77⟩] (by decide) (by decide) (by decide)⟩

/-! ## Claim C5: declared-size enforcement in entry reads -/

/-- C5: a read view with declared remaining count `er.count`:

* truncation — if the decompressed stream runs dry while the declared count
  is not yet reached, `Read` hands back what it got together with the
  latched `io.ErrUnexpectedEOF`;
* logical end — once the declared count is reached, `Read` reports `io.EOF`
  even if decompressed bytes remain beyond it;
* latching — a view whose terminal result is latched returns exactly that
  result, unchanged, on every further `Read`. -/
theorem c5_entry_read (er : EReader) (n : Nat) :
    (er.err = none → er.d.length < er.count → 0 < min n er.count →
      er.d.length ≤ min n er.count →
      eread er n = ((er.d, some .unexpectedEOF),
        ⟨[], er.count - er.d.length, er.acc, er.adler, some .unexpectedEOF⟩)) ∧
    (er.err = none → er.count ≤ n → er.count ≤ er.d.length →
      eread er n = ((er.d.take er.count, some .eof),
        ⟨er.d.drop er.count, 0, er.acc, er.adler, some .eof⟩)) ∧
    (∀ e, er.err = some e → eread er n = (([], some e), er)) := by
  refine ⟨?_, ?_, ?_⟩
  · intro he hlt h0 hd
    have htk : er.d.take (min n er.count) = er.d := List.take_of_length_le hd
    have hdr : er.d.drop (min n er.count) = [] := by
      rw [List.drop_eq_nil_iff]
      exact hd
    simp only [eread, he, if_pos h0, htk, hdr]
    rw [if_pos (⟨h0, hd⟩ : 0 < min n er.count ∧ er.d.length ≤ min n er.count)]
    rw [if_pos ⟨rfl, by omega⟩]
  · intro he hn hcd
    by_cases h0 : 0 < er.count
    · have hm : min n er.count = er.count := Nat.min_eq_right hn
      have hlen : (er.d.take er.count).length = er.count := by
        rw [List.length_take]
        omega
      by_cases hfull : er.d.length ≤ er.count
      · have hrerr : 0 < er.count ∧ er.d.length ≤ er.count := ⟨h0, hfull⟩
        simp only [eread, he, hm, if_pos h0, hlen, if_pos hrerr]
        rw [if_neg (by simp), if_neg (by simp)]
        simp
      · have hrerr : ¬(0 < er.count ∧ er.d.length ≤ er.count) := fun hx => hfull hx.2
        simp only [eread, he, hm, if_pos h0, hlen, if_neg hrerr]
        rw [if_neg (by simp), if_pos ⟨trivial, by omega⟩]
        simp
    · have hc0 : er.count = 0 := by omega
      simp [eread, he, hc0]
  · intro e he
    simp only [eread, he]

/-- Witness for C5 at a concrete view state. -/
theorem c5_entry_read_w :
    ((⟨[7, 8], 5, 1, 1, none⟩ : EReader).err = none ∧
      (⟨[7, 8], 5, 1, 1, none⟩ : EReader).d.length < (⟨[7, 8], 5, 1, 1, none⟩ : EReader).count ∧
      0 < min 9 (⟨[7, 8], 5, 1, 1, none⟩ : EReader).count ∧
      (⟨[7, 8], 5, 1, 1, none⟩ : EReader).d.length ≤ min 9 (⟨[7, 8], 5, 1, 1, none⟩ : EReader).count) ∧
    eread ⟨[7, 8], 5, 1, 1, none⟩ 9 = (([7, 8], some .unexpectedEOF),
      ⟨[], 3, 1, 1, some .unexpectedEOF⟩) ∧
    eread ⟨[7, 8, 9], 2, 1, 1, none⟩ 6 = (([7, 8], some .eof), ⟨[9], 0, 1, 1, some .eof⟩) ∧
    eread ⟨[7], 1, 1, 1, some .eof⟩ 4 = (([], some .eof), ⟨[7], 1, 1, 1, some .eof⟩) := by
  refine ⟨by decide, ?_, ?_, ?_⟩
  · exact (c5_entry_read ⟨[7, 8], 5, 1, 1, none⟩ 9).1 rfl (by decide) (by decide) (by decide)
  · exact (c5_entry_read ⟨[7, 8, 9], 2, 1, 1, none⟩ 6).2.1 rfl (by decide) (by decide)
  · exact (c5_entry_read ⟨[7], 1, 1, 1, some .eof⟩ 4).2.2 .eof rfl

/-! ## Claim C4: per-entry checksum on Close, and its scoping -/

theorem take_set_of_le {α : Type} (l : List α) (p a : Nat) (v : α) (h : a ≤ p) :
    (l.set p v).take a = l.take a := by
  rw [List.set_take]
  exact List.set_eq_of_length_le (by rw [List.length_take]; omega)

theorem drop_set_ge {α : Type} (l : List α) (p a : Nat) (v : α) (h : a ≤ p) :
    (l.set p v).drop a = (l.drop a).set (p - a) v := by
  induction a generalizing l p with
  | zero => simp
  | succ a ih =>
    cases l with
    | nil => simp
    | cons x xs =>
      cases p with
      | zero => omega
      | succ p =>
        show (xs.set p v).drop a = (xs.drop a).set (p + 1 - (a + 1)) v
        rw [ih xs p (by omega)]
        congr 1
        omega

/-- `NewReader` looks only at the header bytes, the footer bytes, and the
stream at the footer's table offset. -/
theorem newReader_congr (c : Codec) (s t : List Nat) (h1 : s.length = t.length)
    (h2 : s.take 4 = t.take 4)
    (h3 : s.drop (s.length - 16) = t.drop (t.length - 16))
    (h4 : s.drop (decLE ((t.drop (t.length - 16)).take 8)) =
      t.drop (decLE ((t.drop (t.length - 16)).take 8))) :
    newReader c s = newReader c t := by
  unfold newReader
  rw [h1, h2, show s.drop (t.length - 16) = t.drop (t.length - 16) from h1 ▸ h3]
  simp only [h4]

/-- Opening an entry looks only at the stream its record points at. -/
theorem eopen_congr (c : Codec) (s t : List Nat) (e : Entry) (d0 : List Nat) (n0 : Nat)
    (hs : c.decompress (s.drop e.index) = some (d0, n0))
    (ht : (t.drop e.index).take n0 = (s.drop e.index).take n0) :
    eopen c t e = eopen c s e := by
  have ht' : c.decompress (t.drop e.index) = some (d0, n0) := c.dec_stable _ _ _ _ hs ht
  unfold eopen
  by_cases hidx : 2 ^ 63 ≤ e.index
  · rw [if_pos hidx, if_pos hidx]
  · rw [if_neg hidx, if_neg hidx]
    simp only [hs, ht']
    rw [show adler32 ((t.drop e.index).take n0) = adler32 ((s.drop e.index).take n0) from
      by rw [ht]]

theorem containerOf_dropk (c : Codec) (items : List Item) (k : Nat)
    (hk : k < items.length) :
    (containerOf c items).drop (4 + (dataBytes c (items.take k)).length) =
      c.compress ((items.getD k default).content) ++
        (dataBytes c (items.drop (k + 1)) ++
          (c.compress (tableBytes (finalizedEntries c 4 items)) ++ footerOf c items)) := by
  have hsplit := dataBytes_split c items k hk
  have hform : containerOf c items =
      (headerBytes ++ dataBytes c (items.take k)) ++
        (c.compress ((items.getD k default).content) ++
          (dataBytes c (items.drop (k + 1)) ++
            (c.compress (tableBytes (finalizedEntries c 4 items)) ++ footerOf c items))) := by
    rw [containerOf_shape c items]
    conv_lhs => rw [hsplit]
    simp [List.append_assoc]
  rw [hform]
  exact drop_app_len _ _ _ (by simp [headerBytes]; omega)

theorem containerOf_entry_decompress (c : Codec) (items : List Item) (k : Nat)
    (hk : k < items.length) (hlt : (items.getD k default).content.length < 2 ^ 64) :
    c.decompress ((containerOf c items).drop (4 + (dataBytes c (items.take k)).length)) =
      some ((items.getD k default).content,
        (c.compress ((items.getD k default).content)).length) := by
  rw [containerOf_dropk c items k hk]
  exact c.comp_roundtrip _ _ hlt

theorem containerOf_tableOff (c : Codec) (items : List Item)
    (h : 4 + (dataBytes c items).length < 2 ^ 64) :
    decLE (((containerOf c items).drop ((containerOf c items).length - 16)).take 8) =
      4 + (dataBytes c items).length := by
  rw [containerOf_footer c items]
  rw [show (footerOf c items).take 8 = encLE 8 (4 + (dataBytes c items).length) from by
    rw [footerOf, List.append_assoc]
    exact take_app_len _ _ _ (encLE_length _ _)]
  exact decLE_encLE_of_lt (by norm_num; omega)

theorem dataBytes_take_all_le (c : Codec) (items : List Item) (k : Nat)
    (hk : k ≤ items.length) :
    (dataBytes c (items.take k)).length ≤ (dataBytes c items).length := by
  have h1 := dataBytes_take_le c items k items.length hk
  rwa [List.take_length] at h1

/-- What claim C4 promises for a single-byte corruption of entry `i`'s
compressed stream at in-stream offset `q`: the checksum iff on `eclose`, an
unaffected entry list, unaffected opening, extraction and verification of
entry `j`, and a failing `Close` for entry `i` itself whenever its stream
still decompresses with the same consumed length. -/
def CloseChecksumSpec (c : Codec) (items : List Item) (i j q v : Nat) : Prop :=
    (∀ er : EReader, (eclose er = some .invalidChecksum ↔ er.adler ≠ er.acc) ∧
      (eclose er = none ↔ er.adler = er.acc)) ∧
    newReader c ((buildContainer c items).set
        (4 + (dataBytes c (items.take i)).length + q) v) =
      .ok (finalizedEntries c 4 items) ∧
    eopen c ((buildContainer c items).set (4 + (dataBytes c (items.take i)).length + q) v)
        ((finalizedEntries c 4 items).getD j default) =
      eopen c (buildContainer c items) ((finalizedEntries c 4 items).getD j default) ∧
    (∃ er, eopen c (buildContainer c items)
        ((finalizedEntries c 4 items).getD j default) = some er ∧
      eread er ((finalizedEntries c 4 items).getD j default).Size =
        (((items.getD j default).content, some .eof), ⟨[], 0, er.acc, er.adler, some .eof⟩) ∧
      eclose (eread er ((finalizedEntries c 4 items).getD j default).Size).2 = none) ∧
    (∀ d1, c.decompress (((buildContainer c items).set
          (4 + (dataBytes c (items.take i)).length + q) v).drop
            (4 + (dataBytes c (items.take i)).length)) =
        some (d1, (c.compress ((items.getD i default).content)).length) →
      ∃ er, eopen c ((buildContainer c items).set
            (4 + (dataBytes c (items.take i)).length + q) v)
          ((finalizedEntries c 4 items).getD i default) = some er ∧
        eclose er = some .invalidChecksum)

/-- C4: an entry view's `Close` reports the invalid-checksum error exactly
when the Adler-32 accumulated over the compressed bytes of its stream
differs from the checksum in the entry's table record; the failure is scoped
to that entry only — corrupting one byte inside entry `i`'s compressed
stream leaves the Reader's entry list and the extraction and verification of
every other entry `j` untouched, while entry `i`'s own view (when its stream
still decompresses with the same consumed length) fails its `Close`
checksum. -/
theorem c4_entry_checksum (c : Codec) (items : List Item) (h : ValidItems c items)
    (i j q v : Nat) (hi : i < items.length) (hj : j < items.length) (hij : j ≠ i)
    (hq : q < (c.compress ((items.getD i default).content)).length) (hv : v < 256)
    (hne : v ≠ (c.compress ((items.getD i default).content)).getD q 0) :
    CloseChecksumSpec c items i j q v := by
  unfold CloseChecksumSpec
  obtain ⟨hne', hv', hdata, htb, hcnt⟩ := h
  have hvn : ∀ it ∈ items, ValidName it.name := fun it hit => (hv' it hit).1
  have hbc := buildContainer_eq c items hne' hvn
  have hmem : ∀ k : Nat, k < items.length → items.getD k default ∈ items := by
    intro k hk
    rw [List.getD_eq_getElem _ _ hk]
    exact List.getElem_mem _
  have hconlt : ∀ k : Nat, k < items.length → (items.getD k default).content.length < 2 ^ 64 :=
    fun k hk => (hv' _ (hmem k hk)).2.2.2.1
  -- positions
  have hstep_i := dataBytes_take_succ c items i hi
  have hii : (dataBytes c (items.take (i + 1))).length ≤ (dataBytes c items).length :=
    dataBytes_take_all_le c items (i + 1) (by omega)
  have hp_lt : 4 + (dataBytes c (items.take i)).length + q < 4 + (dataBytes c items).length := by
    omega
  have hslen := containerOf_length c items
  -- part 1: the iff
  refine ⟨?_, ?_, ?_, ?_, ?_⟩
  · intro er
    by_cases hx : er.adler = er.acc
    · simp [eclose, hx]
    · simp [eclose, hx]
  -- part 2: the entry list survives
  · rw [hbc]
    have hcongr : newReader c ((containerOf c items).set
        (4 + (dataBytes c (items.take i)).length + q) v) =
        newReader c (containerOf c items) := by
      refine newReader_congr c _ _ (List.length_set _ _ _) ?_ ?_ ?_
      · exact take_set_of_le _ _ _ _ (by omega)
      · rw [List.length_set]
        exact List.drop_set_of_lt _ _ (by omega)
      · rw [containerOf_tableOff c items (by omega)]
        exact List.drop_set_of_lt _ _ (by omega)
    rw [hcongr]
    exact newReader_containerOf c items ⟨hne', hv', hdata, htb, hcnt⟩
  -- part 3: other views are untouched
  · rw [hbc]
    have hgetj := finalizedEntries_getD c 4 items j hj
    have hdecj := containerOf_entry_decompress c items j hj (hconlt j hj)
    have hstep_j := dataBytes_take_succ c items j hj
    refine eopen_congr c (containerOf c items) _ _ _ _ (by rw [hgetj]; exact hdecj) ?_
    rw [hgetj]
    show (((containerOf c items).set (4 + (dataBytes c (items.take i)).length + q) v).drop
        (4 + (dataBytes c (items.take j)).length)).take
          (c.compress ((items.getD j default).content)).length =
      ((containerOf c items).drop (4 + (dataBytes c (items.take j)).length)).take
        (c.compress ((items.getD j default).content)).length
    rcases Nat.lt_or_ge j i with hji | hji
    · -- j before i: the corruption is past j's stream
      have hord : (dataBytes c (items.take (j + 1))).length ≤
          (dataBytes c (items.take i)).length :=
        dataBytes_take_le c items (j + 1) i (by omega)
      rw [drop_set_ge _ _ _ _ (by omega)]
      exact take_set_of_le _ _ _ _ (by omega)
    · -- j after i: the corruption is before j's stream
      have hord : (dataBytes c (items.take (i + 1))).length ≤
          (dataBytes c (items.take j)).length :=
        dataBytes_take_le c items (i + 1) j (by omega)
      rw [List.drop_set_of_lt _ _ (by omega)]
  -- part 4: other entries still extract and verify
  · rw [hbc]
    have hgetj := finalizedEntries_getD c 4 items j hj
    refine ⟨⟨(items.getD j default).content, (items.getD j default).content.length,
      adler32 (c.compress (items.getD j default).content),
      adler32 (c.compress (items.getD j default).content), none⟩,
      eopen_containerOf c items ⟨hne', hv', hdata, htb, hcnt⟩ j hj, ?_, ?_⟩
    · have hfull := eread_full ⟨(items.getD j default).content,
        (items.getD j default).content.length,
        adler32 (c.compress (items.getD j default).content),
        adler32 (c.compress (items.getD j default).content), none⟩ rfl rfl
      rw [hgetj]
      exact hfull
    · have hfull := eread_full ⟨(items.getD j default).content,
        (items.getD j default).content.length,
        adler32 (c.compress (items.getD j default).content),
        adler32 (c.compress (items.getD j default).content), none⟩ rfl rfl
      rw [hgetj]
      rw [show ((mkEntry c (4 + (dataBytes c (items.take j)).length)
        (items.getD j default)).Size) = (items.getD j default).content.length from rfl]
      rw [hfull]
      simp [eclose]
  -- part 5: entry i's view fails its close
  · intro d1 hd1
    rw [hbc] at hd1 ⊢
    have hgeti := finalizedEntries_getD c 4 items i hi
    have hdropi := containerOf_dropk c items i hi
    have hcorr : (((containerOf c items).set
        (4 + (dataBytes c (items.take i)).length + q) v).drop
          (4 + (dataBytes c (items.take i)).length)).take
            (c.compress ((items.getD i default).content)).length =
        (c.compress ((items.getD i default).content)).set q v := by
      rw [drop_set_ge _ _ _ _ (by omega)]
      rw [show 4 + (dataBytes c (items.take i)).length + q -
        (4 + (dataBytes c (items.take i)).length) = q from by omega]
      rw [List.set_take, hdropi, take_app_len _ _ _ rfl]
    have hbytes_i : ∀ b ∈ c.compress ((items.getD i default).content), b < 256 :=
      c.comp_bytes _ (hv' _ (hmem i hi)).2.2.2.2
    have hgd : (c.compress ((items.getD i default).content)).getD q 0 < 256 := by
      rw [List.getD_eq_getElem _ _ hq]
      exact hbytes_i _ (List.getElem_mem _)
    have hadler_ne : adler32 ((c.compress ((items.getD i default).content)).set q v) ≠
        adler32 (c.compress ((items.getD i default).content)) :=
      adler32_set_ne _ q v hq hv hgd (fun hx => hne hx)
    rw [hgeti]
    unfold eopen
    rw [if_neg (by simp only [mkEntry]; omega)]
    rw [show (mkEntry c (4 + (dataBytes c (items.take i)).length)
      (items.getD i default)).index = 4 + (dataBytes c (items.take i)).length from rfl]
    simp only [hd1]
    refine ⟨_, rfl, ?_⟩
    simp only [eclose, hcorr, mkEntry]
    rw [if_pos (fun hx => hadler_ne hx.symm)]

/-- Witness for C4: corrupt the ninth compressed byte of entry 0 and watch
entry 1 survive. -/
theorem c4_entry_checksum_w :
    (ValidItems lenCodec [⟨[97], 420, [104, 105]⟩, ⟨[98], 493, [1, 2]⟩] ∧
      0 < ([⟨[97], 420, [104, 105]⟩, ⟨[98], 493, [1, 2]⟩] : List Item).length ∧
      1 < ([⟨[97], 420, [104, 105]⟩, ⟨[98], 493, [1, 2]⟩] : List Item).length ∧
      (1 : Nat) ≠ 0 ∧
      8 < (lenCodec.compress (([⟨[97], 420, [104, 105]⟩, ⟨[98], 493, [1, 2]⟩].getD 0
        default : Item)).content).length ∧
      (0 : Nat) < 256 ∧
      (0 : Nat) ≠ (lenCodec.compress (([⟨[97], 420, [104, 105]⟩, ⟨[98], 493, [1, 2]⟩].getD 0
        default : Item)).content).getD 8 0) ∧
    CloseChecksumSpec lenCodec [⟨[97], 420, [104, 105]⟩, ⟨[98], 493, [1, 2]⟩] 0 1 8 0 :=
  ⟨by decide, c4_entry_checksum lenCodec _ (by decide) 0 1 8 0 (by decide) (by decide)
    (by decide) (by decide) (by decide) (by decide)⟩

/-! ## Claim C3: the table checksum gate in NewReader -/

theorem getD_drop_take (s : List Nat) (a n p : Nat) (hp : p < n) (hlen : a + n ≤ s.length) :
    ((s.drop a).take n).getD p 0 = s.getD (a + p) 0 := by
  have h1 : p < ((s.drop a).take n).length := by
    rw [List.length_take, List.length_drop]
    omega
  have h2 : a + p < s.length := by omega
  rw [List.getD_eq_getElem _ _ h1, List.getD_eq_getElem _ _ h2]
  simp [List.getElem_take, List.getElem_drop]

/-- The amended claim C3 for a container with a well-formed header and
footer and a decodable table whose compressed stream occupies
`[tOff, tOff + n)` and decodes to entries `es`: open fails with the
invalid-checksum error exactly when the Adler-32 of the consumed compressed
table bytes differs from the footer's checksum, succeeds with `es` exactly
when it matches; when the original checksum matches, a single-byte
corruption of a consumed byte can only leave open succeeding if it changed
the length of the compressed stream the decompressor consumes; and a byte
of the Table region past the consumed stream is never read: changing it
leaves open's result identical. -/
def TableChecksumSpec (c : Codec) (s : List Nat) (tOff a cnt : Nat) (tb : List Nat)
    (n : Nat) (es : List Entry) : Prop :=
  (newReader c s = .error .invalidChecksum ↔ adler32 ((s.drop tOff).take n) ≠ a) ∧
  (newReader c s = .ok es ↔ adler32 ((s.drop tOff).take n) = a) ∧
  (adler32 ((s.drop tOff).take n) = a →
    ∀ p v, tOff ≤ p → p < tOff + n → v < 256 → v ≠ s.getD p 0 →
      ∀ r, newReader c (s.set p v) = .ok r →
        ∀ tb1 n1, c.decompress ((s.set p v).drop tOff) = some (tb1, n1) → n1 ≠ n) ∧
  (∀ p v, tOff + n ≤ p → p < s.length - 16 → newReader c (s.set p v) = newReader c s)

/-- C3 (amended): with a well-formed header and footer and a decodable
table, `NewReader` returns the invalid-checksum error (and no entry list)
if and only if the Adler-32 accumulated over the compressed table bytes it
read differs from the footer's `table_checksum`; corrupting any compressed
byte the stream reader consumes makes open fail unless the corruption
changes how many compressed bytes the stream spans (a same-length
corruption always changes an Adler-32, so only the checksum guards that
case); and a byte of the Table region beyond the consumed stream is never
read, so changing it leaves open's result identical — the original claim's
"corrupting any byte within the Table region makes container open fail" is
refuted by `c3_counterexample`.  The `0 < cnt` hypothesis keeps the model
faithful: a zero-record loop would pull nothing through the checksum
reader. -/
theorem c3_table_checksum (c : Codec) (s : List Nat) (tOff a cnt : Nat) (tb : List Nat)
    (n : Nat) (es : List Entry)
    (hmagic : padTo 4 (s.take 4) = headerBytes)
    (hlen : 16 ≤ s.length)
    (htOff : decLE ((s.drop (s.length - 16)).take 8) = tOff)
    (ha : decLE (((s.drop (s.length - 16)).drop 8).take 4) = a)
    (hcnt : decLE (((s.drop (s.length - 16)).drop 12).take 4) = cnt)
    (hseek : tOff < 2 ^ 63)
    (hdec : c.decompress (s.drop tOff) = some (tb, n))
    (hloop : decodeEntriesRest cnt tb = .ok (es, []))
    (hcnt0 : 0 < cnt)
    (hregion : 4 ≤ tOff) (hrend : tOff + n + 16 ≤ s.length)
    (hbytes : ∀ b ∈ s, b < 256) :
    TableChecksumSpec c s tOff a cnt tb n es := by
  have hdecE : decodeEntries cnt tb = .ok es := by
    unfold decodeEntries
    rw [hloop]
    rfl
  have heval : newReader c s =
      if adler32 ((s.drop tOff).take n) ≠ a then .error .invalidChecksum
      else .ok es := by
    unfold newReader
    rw [if_neg (by omega)]
    simp only [hmagic]
    rw [if_neg (by decide), if_neg (by decide), if_neg (by omega)]
    simp only [htOff, ha, hcnt]
    rw [if_neg (by omega)]
    simp only [hdec, hdecE]
  refine ⟨?_, ?_, ?_, ?_⟩
  · rw [heval]
    by_cases hx : adler32 ((s.drop tOff).take n) = a
    · rw [if_neg (by simpa using hx)]
      simp [hx]
    · rw [if_pos (by simpa using hx)]
      simp [hx]
  · rw [heval]
    by_cases hx : adler32 ((s.drop tOff).take n) = a
    · rw [if_neg (by simpa using hx)]
      simp [hx]
    · rw [if_pos (by simpa using hx)]
      simp [hx]
  · intro hvalid p v hp1 hp2 hv hne r hok tb1 n1 hdec1
    intro hn1
    subst hn1
    -- the corrupted container still decodes the same header and footer
    have h2 : (s.set p v).take 4 = s.take 4 := take_set_of_le _ _ _ _ (by omega)
    have h3 : (s.set p v).drop (s.length - 16) = s.drop (s.length - 16) :=
      List.drop_set_of_lt _ _ (by omega)
    -- the corrupted table bytes have a different checksum
    have hcorr : ((s.set p v).drop tOff).take n1 = ((s.drop tOff).take n1).set (p - tOff) v := by
      rw [drop_set_ge _ _ _ _ (by omega), List.set_take]
    have hbt : ∀ b ∈ (s.drop tOff).take n1, b < 256 :=
      fun b hb => hbytes b (List.mem_of_mem_drop (List.mem_of_mem_take hb))
    have hptn : p - tOff < ((s.drop tOff).take n1).length := by
      rw [List.length_take, List.length_drop]
      omega
    have hgd : ((s.drop tOff).take n1).getD (p - tOff) 0 = s.getD p 0 := by
      rw [getD_drop_take s tOff n1 (p - tOff) (by omega) (by omega)]
      rw [show tOff + (p - tOff) = p from by omega]
    have hadler1 : adler32 (((s.drop tOff).take n1).set (p - tOff) v) ≠
        adler32 ((s.drop tOff).take n1) := by
      refine adler32_set_ne _ _ _ hptn hv ?_ ?_
      · rw [hgd]
        have hp' : p < s.length := by omega
        rw [List.getD_eq_getElem _ _ hp']
        exact hbytes _ (List.getElem_mem _)
      · rw [hgd]
        exact hne
    cases hde1 : decodeEntries cnt tb1 with
    | error e =>
      have heval1 : newReader c (s.set p v) = .error e := by
        unfold newReader
        rw [List.length_set, if_neg (by omega)]
        simp only [h2, hmagic]
        rw [if_neg (by decide), if_neg (by decide), if_neg (by omega)]
        simp only [h3, htOff, ha, hcnt]
        rw [if_neg (by omega)]
        simp only [hdec1, hde1]
      rw [heval1] at hok
      exact absurd hok (by simp)
    | ok es1 =>
      have heval1 : newReader c (s.set p v) =
          if adler32 (((s.set p v).drop tOff).take n1) ≠ a then .error .invalidChecksum
          else .ok es1 := by
        unfold newReader
        rw [List.length_set, if_neg (by omega)]
        simp only [h2, hmagic]
        rw [if_neg (by decide), if_neg (by decide), if_neg (by omega)]
        simp only [h3, htOff, ha, hcnt]
        rw [if_neg (by omega)]
        simp only [hdec1, hde1]
      rw [heval1, hcorr] at hok
      rw [if_pos (by rw [hvalid] at hadler1; simpa using hadler1)] at hok
      exact absurd hok (by simp)
  · intro p v hp1 hp2
    have h2 : (s.set p v).take 4 = s.take 4 := take_set_of_le _ _ _ _ (by omega)
    have h3 : (s.set p v).drop (s.length - 16) = s.drop (s.length - 16) :=
      List.drop_set_of_lt _ _ (by omega)
    have htk : ((s.set p v).drop tOff).take n = (s.drop tOff).take n := by
      rw [drop_set_ge _ _ _ _ (by omega), take_set_of_le _ _ _ _ (by omega)]
    have hdec1 : c.decompress ((s.set p v).drop tOff) = some (tb, n) :=
      c.dec_stable _ _ _ _ hdec htk
    have heval1 : newReader c (s.set p v) =
        if adler32 ((s.drop tOff).take n) ≠ a then .error .invalidChecksum
        else .ok es := by
      unfold newReader
      rw [List.length_set, if_neg (by omega)]
      simp only [h2, hmagic]
      rw [if_neg (by decide), if_neg (by decide), if_neg (by omega)]
      simp only [h3, htOff, ha, hcnt]
      rw [if_neg (by omega)]
      simp only [hdec1, hdecE, htk]
    rw [heval1, heval]

set_option maxRecDepth 10000 in
/-- Witness for C3 at a concrete one-entry container over the concrete
codec. -/
theorem c3_table_checksum_w :
    (padTo 4 ((buildContainer lenCodec [⟨[97], 420, [104, 105]⟩]).take 4) = headerBytes ∧
    16 ≤ (buildContainer lenCodec [⟨[97], 420, [104, 105]⟩]).length ∧
    decLE (((buildContainer lenCodec [⟨[97], 420, [104, 105]⟩]).drop
      ((buildContainer lenCodec [⟨[97], 420, [104, 105]⟩]).length - 16)).take 8) =
      4 + (dataBytes lenCodec [⟨[97], 420, [104, 105]⟩]).length ∧
    decLE ((((buildContainer lenCodec [⟨[97], 420, [104, 105]⟩]).drop
      ((buildContainer lenCodec [⟨[97], 420, [104, 105]⟩]).length - 16)).drop 8).take 4) =
      adler32 (lenCodec.compress (tableBytes (finalizedEntries lenCodec 4
        [⟨[97], 420, [104, 105]⟩]))) ∧
    decLE ((((buildContainer lenCodec [⟨[97], 420, [104, 105]⟩]).drop
      ((buildContainer lenCodec [⟨[97], 420, [104, 105]⟩]).length - 16)).drop 12).take 4) = 1 ∧
    4 + (dataBytes lenCodec [⟨[97], 420, [104, 105]⟩]).length < 2 ^ 63 ∧
    lenCodec.decompress ((buildContainer lenCodec [⟨[97], 420, [104, 105]⟩]).drop
      (4 + (dataBytes lenCodec [⟨[97], 420, [104, 105]⟩]).length)) =
      some (tableBytes (finalizedEntries lenCodec 4 [⟨[97], 420, [104, 105]⟩]),
        (lenCodec.compress (tableBytes (finalizedEntries lenCodec 4
          [⟨[97], 420, [104, 105]⟩]))).length) ∧
    decodeEntriesRest 1 (tableBytes (finalizedEntries lenCodec 4 [⟨[97], 420, [104, 105]⟩])) =
      .ok (finalizedEntries lenCodec 4 [⟨[97], 420, [104, 105]⟩], []) ∧
    (0 : Nat) < 1 ∧
    4 ≤ 4 + (dataBytes lenCodec [⟨[97], 420, [104, 105]⟩]).length ∧
    4 + (dataBytes lenCodec [⟨[97], 420, [104, 105]⟩]).length +
      (lenCodec.compress (tableBytes (finalizedEntries lenCodec 4
        [⟨[97], 420, [104, 105]⟩]))).length + 16 ≤
      (buildContainer lenCodec [⟨[97], 420, [104, 105]⟩]).length ∧
    (∀ b ∈ buildContainer lenCodec [⟨[97], 420, [104, 105]⟩], b < 256)) ∧
    TableChecksumSpec lenCodec (buildContainer lenCodec [⟨[97], 420, [104, 105]⟩])
      (4 + (dataBytes lenCodec [⟨[97], 420, [104, 105]⟩]).length)
      (adler32 (lenCodec.compress (tableBytes (finalizedEntries lenCodec 4
        [⟨[97], 420, [104, 105]⟩]))))
      1
      (tableBytes (finalizedEntries lenCodec 4 [⟨[97], 420, [104, 105]⟩]))
      (lenCodec.compress (tableBytes (finalizedEntries lenCodec 4
        [⟨[97], 420, [104, 105]⟩]))).length
      (finalizedEntries lenCodec 4 [⟨[97], 420, [104, 105]⟩]) :=
  ⟨by decide, c3_table_checksum lenCodec _ _ _ _ _ _ _ (by decide) (by decide) (by decide)
    (by decide) (by decide) (by decide) (by decide) (by decide) (by decide) (by decide)
    (by decide) (by decide)⟩

/-- A directory record for the slack-byte container below. -/
def slackEntry : Entry where
  Name := [97]
  Size := 2
  Perm := 420
  sizeCompressed := (lenCompress [104, 105]).length
  index := 4
  adler := adler32 (lenCompress [104, 105])

/-- The compressed table stream of the slack-byte container. -/
def slackTable : List Nat := lenCompress (encRecord slackEntry)

/-- A container whose compressed table stream ends one byte before the
footer: the footer's `table_offset` is 14, the stream spans positions
`[14, 55)`, and the byte at position 55 — inside the Table region, which
runs up to the footer at 56 — is never consumed by the decompressor and
never enters the checksum. -/
def slackContainer : List Nat :=
  headerBytes ++ lenCompress [104, 105] ++ slackTable ++ [0] ++
    (encLE 8 14 ++ (encLE 4 (adler32 slackTable) ++ encLE 4 1))

set_option maxRecDepth 10000 in
/-- C3, counterexample: the original claim asserts that corrupting any byte
within the Table region makes container open fail, but the stream reader
consumes its compressed stream byte-at-a-time and stops at the stream's
end, so a Table-region byte past the stream is never read.  This container
has a well-formed header and footer (its `table_offset` is 14, its
checksum and count are true) and a decodable table, and open succeeds;
position 55 lies within the Table region `[14, 56)` and holds byte 0, yet
rewriting it to 1 leaves open succeeding with the same entry list. -/
theorem c3_counterexample :
    newReader lenCodec slackContainer = .ok [slackEntry] ∧
    decLE ((slackContainer.drop (slackContainer.length - 16)).take 8) = 14 ∧
    14 ≤ 55 ∧ 55 < slackContainer.length - 16 ∧
    slackContainer.getD 55 0 = 0 ∧ (1 : Nat) < 256 ∧
    (1 : Nat) ≠ slackContainer.getD 55 0 ∧
    newReader lenCodec (slackContainer.set 55 1) = .ok [slackEntry] := by
  decide

/-! ## Claims C8, C9, C10: the writer's error protocol -/

theorem setLast_length (l : List Entry) (f : Entry → Entry) :
    (setLast l f).length = l.length := by
  induction l with
  | nil => rfl
  | cons a l ih =>
    cases l with
    | nil => rfl
    | cons b l' => simpa [setLast] using ih

theorem setLast_map_name (l : List Entry) (f : Entry → Entry)
    (hf : ∀ e, (f e).Name = e.Name) :
    (setLast l f).map Entry.Name = l.map Entry.Name := by
  induction l with
  | nil => rfl
  | cons a l ih =>
    cases l with
    | nil => simp [setLast, hf]
    | cons b l' => simpa [setLast] using ih

theorem finalizeEntry_map_name (c : Codec) (w : Writer) :
    (finalizeEntry c w).entries.map Entry.Name = w.entries.map Entry.Name := by
  unfold finalizeEntry
  cases w.curr with
  | none => rfl
  | some buf => exact setLast_map_name _ _ (fun e => rfl)

theorem finalizeEntry_entries_length (c : Codec) (w : Writer) :
    (finalizeEntry c w).entries.length = w.entries.length := by
  unfold finalizeEntry
  cases w.curr with
  | none => rfl
  | some buf => exact setLast_length _ _

/-- A writer latched on an error other than the initial no-valid-entry
sentinel rejects every call, returns the stored error, and stays untouched
(no bytes reach the sink). -/
theorem applyOp_latched (c : Codec) (w : Writer) (op : Op) (e : BErr)
    (hw : w.err = some e) (hne : e ≠ .noValidEntry) :
    applyOp c w op = (w, some e) := by
  cases op with
  | create name =>
    have h1 : (some e : Option BErr) ≠ none ∧ (some e : Option BErr) ≠ some BErr.noValidEntry :=
      ⟨by simp, by simpa using hne⟩
    simp only [applyOp, create, hw, if_pos h1]
  | setPerms p =>
    have h1 : (some e : Option BErr) ≠ none := by simp
    simp only [applyOp, setPerms, hw, if_pos h1]
  | write bs =>
    have h1 : (some e : Option BErr) ≠ none := by simp
    simp only [applyOp, write, hw, if_pos h1]
  | close =>
    have h1 : (some e : Option BErr) ≠ none := by simp
    simp only [applyOp, close, hw, if_pos h1]

theorem runOps_latched (c : Codec) (w : Writer) (ops : List Op) (e : BErr)
    (hw : w.err = some e) (hne : e ≠ .noValidEntry) :
    runOps c w ops = w := by
  induction ops with
  | nil => rfl
  | cons op ops ih =>
    show runOps c (applyOp c w op).1 ops = w
    rw [applyOp_latched c w op e hw hne]
    exact ih

/-- When a call returns an error other than the no-valid-entry sentinel, the
error is now stored in the writer. -/
theorem applyOp_err_latches (c : Codec) (w : Writer) (op : Op) (e : BErr)
    (h : (applyOp c w op).2 = some e) (hne : e ≠ .noValidEntry) :
    (applyOp c w op).1.err = some e := by
  cases op with
  | create name =>
    simp only [applyOp] at h ⊢
    unfold create at h ⊢
    by_cases h1 : w.err ≠ none ∧ w.err ≠ some BErr.noValidEntry
    · rw [if_pos h1] at h ⊢
      exact h
    · rw [if_neg h1] at h ⊢
      by_cases h2 : ¬isLocalName name = true ∨ name.contains 92 = true
      · rw [if_pos h2] at h ⊢
        simpa using h
      · rw [if_neg h2] at h
        exact absurd h (by simp)
  | setPerms p =>
    simp only [applyOp] at h ⊢
    unfold setPerms at h ⊢
    by_cases h1 : w.err ≠ none
    · rw [if_pos h1] at h ⊢
      exact h
    · rw [if_neg h1] at h
      exact absurd h (by simp)
  | write bs =>
    simp only [applyOp] at h ⊢
    unfold write at h ⊢
    by_cases h1 : w.err ≠ none
    · rw [if_pos h1] at h ⊢
      exact h
    · rw [if_neg h1] at h
      exact absurd h (by simp)
  | close =>
    simp only [applyOp] at h ⊢
    unfold close at h ⊢
    by_cases h1 : w.err ≠ none
    · rw [if_pos h1] at h ⊢
      exact h
    · rw [if_neg h1] at h
      exact absurd h (by simp)

/-- C8 (amended): returning the pre-create no-valid-entry error does not
latch (a later `Create` may succeed, see the counterexample), but once any
call returns any other error the Writer latches permanently: the same error
is stored, and after any sequence of further calls the next call still
returns exactly that error with the writer — its sink included — unchanged;
after a successful `Close`, every later call fails with the dedicated
write-after-close error in the same permanent way. -/
theorem c8_error_latch (c : Codec) (w : Writer) (op : Op) (e : BErr)
    (h : (applyOp c w op).2 = some e) (hne : e ≠ .noValidEntry) :
    (applyOp c w op).1.err = some e ∧
    (∀ ops op2, applyOp c (runOps c (applyOp c w op).1 ops) op2 =
      ((applyOp c w op).1, some e)) ∧
    (∀ w2, (close c w2).2 = none →
      ∀ ops op2, applyOp c (runOps c (close c w2).1 ops) op2 =
        ((close c w2).1, some .writeAfterClose)) := by
  have h1 := applyOp_err_latches c w op e h hne
  refine ⟨h1, ?_, ?_⟩
  · intro ops op2
    rw [runOps_latched c _ ops e h1 hne]
    exact applyOp_latched c _ op2 e h1 hne
  · intro w2 hc ops op2
    have h2 : (close c w2).1.err = some .writeAfterClose := by
      unfold close at hc ⊢
      by_cases hw2 : w2.err ≠ none
      · rw [if_pos hw2] at hc
        exact absurd hc (by simpa using hw2)
      · rw [if_neg hw2]
    rw [runOps_latched c _ ops _ h2 (by simp)]
    exact applyOp_latched c _ op2 _ h2 (by simp)

/-- Counterexample to C8 as stated: `Write` on a fresh writer returns the
no-valid-entry error, yet the next `Create` succeeds — so not every error
return latches the writer into a permanent failed state. -/
theorem c8_counterexample :
    (write newWriter [5]).2 = some .noValidEntry ∧
    (create lenCodec (write newWriter [5]).1 [97]).2 = none := by decide

/-- Witness for (amended) C8: a rejected name latches `pathIsNotSimple`. -/
theorem c8_error_latch_w :
    ((applyOp lenCodec newWriter (.create [46, 46])).2 = some .pathIsNotSimple ∧
      BErr.pathIsNotSimple ≠ BErr.noValidEntry) ∧
    ((applyOp lenCodec newWriter (.create [46, 46])).1.err = some .pathIsNotSimple ∧
    (∀ ops op2, applyOp lenCodec
        (runOps lenCodec (applyOp lenCodec newWriter (.create [46, 46])).1 ops) op2 =
      ((applyOp lenCodec newWriter (.create [46, 46])).1, some .pathIsNotSimple)) ∧
    (∀ w2, (close lenCodec w2).2 = none →
      ∀ ops op2, applyOp lenCodec (runOps lenCodec (close lenCodec w2).1 ops) op2 =
        ((close lenCodec w2).1, some .writeAfterClose))) :=
  ⟨⟨by decide, by decide⟩,
    c8_error_latch lenCodec newWriter (.create [46, 46]) .pathIsNotSimple
      (by decide) (by decide)⟩

/-- C9: `Create` rejects every name that is not a simple local relative path
(per `filepath.IsLocal`, together with the explicit backslash check) with
the path-not-simple error; the error latches, no entry record for the
rejected name joins the entry list, and nothing beyond the previous entry's
finalized stream reaches the container. -/
theorem c9_name_validation (c : Codec) (w : Writer) (name : List Nat)
    (hw : w.err = none ∨ w.err = some .noValidEntry)
    (hbad : ¬(isLocalName name = true ∧ name.contains 92 = false)) :
    (create c w name).2 = some .pathIsNotSimple ∧
    (create c w name).1.err = some .pathIsNotSimple ∧
    (create c w name).1.entries.map Entry.Name = w.entries.map Entry.Name ∧
    (create c w name).1 =
      { (if w.err = some .noValidEntry then w else finalizeEntry c w) with
        err := some .pathIsNotSimple } := by
  have hcond : ¬isLocalName name = true ∨ name.contains 92 = true := by
    rcases Bool.eq_false_or_eq_true (name.contains 92) with hb | hb
    · right
      exact hb
    · left
      intro hl
      exact hbad ⟨hl, hb⟩
  rcases hw with hw | hw
  · have h1 : ¬(w.err ≠ none ∧ w.err ≠ some BErr.noValidEntry) := by
      rw [hw]
      simp
    unfold create
    rw [if_neg h1, if_pos (show w.err ≠ some BErr.noValidEntry from by rw [hw]; simp),
      if_pos hcond, if_neg (show ¬(w.err = some BErr.noValidEntry) from by rw [hw]; simp)]
    refine ⟨rfl, rfl, finalizeEntry_map_name c w, rfl⟩
  · have h1 : ¬(w.err ≠ none ∧ w.err ≠ some BErr.noValidEntry) := by
      rw [hw]
      simp
    unfold create
    rw [if_neg h1, if_neg (show ¬(w.err ≠ some BErr.noValidEntry) from by rw [hw]; simp),
      if_pos hcond, if_pos hw]
    exact ⟨rfl, rfl, rfl, rfl⟩

/-- Witness for C9: the traversal name `..` is rejected on a fresh writer. -/
theorem c9_name_validation_w :
    (newWriter.err = none ∨ newWriter.err = some .noValidEntry) ∧
    ¬(isLocalName [46, 46] = true ∧ ([46, 46] : List Nat).contains 92 = false) ∧
    ((create lenCodec newWriter [46, 46]).2 = some .pathIsNotSimple ∧
    (create lenCodec newWriter [46, 46]).1.err = some .pathIsNotSimple ∧
    (create lenCodec newWriter [46, 46]).1.entries.map Entry.Name =
      newWriter.entries.map Entry.Name ∧
    (create lenCodec newWriter [46, 46]).1 =
      { (if newWriter.err = some .noValidEntry then newWriter
         else finalizeEntry lenCodec newWriter) with err := some .pathIsNotSimple }) :=
  ⟨by decide, by decide,
    c9_name_validation lenCodec newWriter [46, 46] (by decide) (by decide)⟩

/-- The reachable-state invariant behind C10: a writer that is not in an
error state has at least one entry. -/
theorem runOps_entries_ne (c : Codec) (ops : List Op) :
    (runOps c newWriter ops).err = none → (runOps c newWriter ops).entries ≠ [] := by
  suffices h : ∀ (ops : List Op) (w : Writer), (w.err = none → w.entries ≠ []) →
      ((runOps c w ops).err = none → (runOps c w ops).entries ≠ []) by
    exact h ops newWriter (fun hx => absurd hx (by simp [newWriter]))
  intro ops
  induction ops with
  | nil => intro w hw; exact hw
  | cons op ops ih =>
    intro w hw
    refine ih (applyOp c w op).1 ?_
    cases op with
    | create name =>
      simp only [applyOp]
      unfold create
      by_cases h1 : w.err ≠ none ∧ w.err ≠ some BErr.noValidEntry
      · rw [if_pos h1]
        exact hw
      · rw [if_neg h1]
        by_cases h2 : ¬isLocalName name = true ∨ name.contains 92 = true
        · rw [if_pos h2]
          intro hx
          exact absurd hx (by simp)
        · rw [if_neg h2]
          intro _
          simp
    | setPerms p =>
      simp only [applyOp]
      unfold setPerms
      by_cases h1 : w.err ≠ none
      · rw [if_pos h1]
        exact hw
      · rw [if_neg h1]
        intro hx
        have hne := hw (by simpa using h1)
        simp only []
        intro hnil
        have := congrArg List.length hnil
        rw [setLast_length] at this
        exact hne (List.length_eq_zero.mp (by simpa using this))
    | write bs =>
      simp only [applyOp]
      unfold write
      by_cases h1 : w.err ≠ none
      · rw [if_pos h1]
        exact hw
      · rw [if_neg h1]
        intro hx
        exact hw (by simpa using h1)
    | close =>
      simp only [applyOp]
      unfold close
      by_cases h1 : w.err ≠ none
      · rw [if_pos h1]
        exact hw
      · rw [if_neg h1]
        intro hx
        exact absurd hx (by simp)

/-- C10 (amended): on a fresh writer — before any `Create` call — `Write`,
`SetPerms` and `Close` all fail with the no-valid-entry error and leave the
writer (sink included) untouched; after a failed `Create` the latched error
is returned instead (see the counterexample).  A container with zero entries
can never be produced: `Close` on the fresh writer writes neither table nor
footer, and whenever `Close` succeeds on any reachable writer the entry list
is nonempty. -/
theorem c10_fresh_writer (c : Codec) :
    (∀ p, setPerms newWriter p = (newWriter, some .noValidEntry)) ∧
    (∀ bs, write newWriter bs = (newWriter, some .noValidEntry)) ∧
    close c newWriter = (newWriter, some .noValidEntry) ∧
    (∀ ops, (close c (runOps c newWriter ops)).2 = none →
      (close c (runOps c newWriter ops)).1.entries ≠ []) := by
  refine ⟨?_, ?_, ?_, ?_⟩
  · intro p
    unfold setPerms
    rw [if_pos (by simp [newWriter])]
    rfl
  · intro bs
    unfold write
    rw [if_pos (by simp [newWriter])]
    rfl
  · unfold close
    rw [if_pos (by simp [newWriter])]
    rfl
  · intro ops hc
    have hW := runOps_entries_ne c ops
    unfold close at hc ⊢
    by_cases h1 : (runOps c newWriter ops).err ≠ none
    · rw [if_pos h1] at hc
      exact absurd hc (by simpa using h1)
    · rw [if_neg h1] at hc ⊢
      have hne := hW (by simpa using h1)
      simp only []
      intro hnil
      have h2 := congrArg List.length hnil
      rw [finalizeEntry_entries_length] at h2
      exact hne (List.length_eq_zero.mp (by simpa using h2))

/-- Counterexample to C10 as stated: after a failed `Create` (no successful
`Create` has happened yet), `Write` fails with the latched path error, not
with the no-valid-entry error. -/
theorem c10_counterexample :
    (create lenCodec newWriter [46, 46]).2 = some .pathIsNotSimple ∧
    (write (create lenCodec newWriter [46, 46]).1 [1]).2 = some .pathIsNotSimple ∧
    some BErr.pathIsNotSimple ≠ some BErr.noValidEntry := by decide

/-- Witness for (amended) C10 over the concrete codec. -/
theorem c10_fresh_writer_w :
    (∀ p, setPerms newWriter p = (newWriter, some .noValidEntry)) ∧
    (∀ bs, write newWriter bs = (newWriter, some .noValidEntry)) ∧
    close lenCodec newWriter = (newWriter, some .noValidEntry) ∧
    (∀ ops, (close lenCodec (runOps lenCodec newWriter ops)).2 = none →
      (close lenCodec (runOps lenCodec newWriter ops)).1.entries ≠ []) :=
  c10_fresh_writer lenCodec

end Bar
